import Mathlib

/-!
Verification of the workflow analysis engine of `github-actions-creator`.

The development shallowly embeds the analysis functions of the repository
(`findCircularDependencies`, `checkWorkflowForErrors`, `isValidRunner`,
`preprocessYaml`, `parseWorkflow`, `analyzeStepVariables`) as executable
Lean functions over `List Char` strings and a JSON-like value type, and
proves the spec's claims about them.

Strings are modelled as `List Char` (`JStr`); JavaScript values flowing
through the untyped source are modelled by the inductive `JsVal`.
-/

set_option maxHeartbeats 1000000

abbrev JStr := List Char

/-! ## Cycle detection (`findCircularDependencies`, workflowErrorChecker.ts)

The source:

```js
export function findCircularDependencies(graph: Record<string, string[]>): string[] {
  const visited = new Set();
  const path: string[] = [];
  const result: string[] = [];
  function dfs(node: string) {
    if (result.length > 0) return;
    if (path.includes(node)) {
      const cycle = [...path.slice(path.indexOf(node)), node];
      result.push(...cycle);
      return;
    }
    if (visited.has(node)) return;
    visited.add(node);
    path.push(node);
    for (const neighbor of graph[node] || []) dfs(neighbor);
    path.pop();
  }
  for (const node of Object.keys(graph)) if (!visited.has(node)) dfs(node);
  return result;
}
```

A graph (JS object) is an association list with lookup on the first
matching key; `graph[node] || []` is `adj`.  The recursion is embedded
with explicit fuel; `dfsFuel` is one more than the number of distinct
node names occurring anywhere in the graph, which bounds the recursion
depth because a node is added to `visited` before its neighbors are
explored and visited nodes never start a new exploration. -/

def adj (g : List (JStr × List JStr)) (n : JStr) : List JStr :=
  (g.lookup n).getD []

/-- `Array.prototype.indexOf`: index of the first occurrence.  JS returns
`-1` when the element is absent; `dfs` only evaluates it after an
`includes` check, so the out-of-range value is irrelevant (we return the
length instead, which makes `drop` yield `[]`, matching `slice(-1)`-free
use). -/
def jsIndexOf (x : JStr) : List JStr → Nat
  | [] => 0
  | a :: t => if a = x then 0 else jsIndexOf x t + 1

structure DfsState where
  visited : List JStr
  path : List JStr
  result : List JStr
deriving Repr

def dfs (g : List (JStr × List JStr)) : Nat → JStr → DfsState → DfsState
  | 0, _, s => s
  | fuel+1, node, s =>
    if s.result.length > 0 then s
    else if node ∈ s.path then
      -- cycle = [...path.slice(path.indexOf(node)), node]; result.push(...cycle)
      { s with result := s.result ++ (s.path.drop (jsIndexOf node s.path) ++ [node]) }
    else if node ∈ s.visited then s
    else
      let s1 : DfsState := ⟨node :: s.visited, s.path ++ [node], s.result⟩
      let s2 := (adj g node).foldl (fun acc nb => dfs g fuel nb acc) s1
      { s2 with path := s2.path.dropLast }

/-- All node names occurring in the graph: the keys and every listed neighbor. -/
def allNodes (g : List (JStr × List JStr)) : List JStr :=
  g.map Prod.fst ++ (g.map Prod.snd).flatten

def dfsFuel (g : List (JStr × List JStr)) : Nat :=
  (allNodes g).dedup.length + 1

def findCircularDependenciesFuel (fuel : Nat) (g : List (JStr × List JStr)) : List JStr :=
  ((g.map Prod.fst).foldl
    (fun acc node => if node ∈ acc.visited then acc else dfs g fuel node acc)
    ⟨[], [], []⟩).result

def findCircularDependencies (g : List (JStr × List JStr)) : List JStr :=
  findCircularDependenciesFuel (dfsFuel g) g

/-- The edge relation of a dependency graph: `Edge g x y` iff `y` is a
member of `graph[x] || []`. -/
def Edge (g : List (JStr × List JStr)) (x y : JStr) : Prop :=
  y ∈ adj g x

instance (g : List (JStr × List JStr)) (x y : JStr) : Decidable (Edge g x y) := by
  unfold Edge; infer_instance

/-- A graph contains a cycle iff some node has a non-empty edge path back
to itself.  Every node on such a loop has an outgoing edge and hence is a
key of the graph, so this is exactly «a cycle among the graph's keys». -/
def HasCycle (g : List (JStr × List JStr)) : Prop :=
  ∃ n, Relation.TransGen (Edge g) n n

/-! ### Basic invariants of `dfs` -/

theorem foldl_inv {α σ : Type _} (f : σ → α → σ) (I : σ → Prop)
    (h : ∀ s a, I s → I (f s a)) : ∀ (l : List α) (s : σ), I s → I (l.foldl f s) := by
  intro l
  induction l with
  | nil => intro s hs; exact hs
  | cons a t ih => intro s hs; exact ih (f s a) (h s a hs)

theorem dfs_of_result_ne (g : List (JStr × List JStr)) (f : Nat) (n : JStr) (s : DfsState)
    (h : s.result ≠ []) : dfs g f n s = s := by
  cases f with
  | zero => rfl
  | succ f =>
    have hl : s.result.length > 0 := List.length_pos.mpr h
    simp [dfs, hl]

theorem dfs_path (g : List (JStr × List JStr)) :
    ∀ (f : Nat) (n : JStr) (s : DfsState), (dfs g f n s).path = s.path := by
  intro f
  induction f with
  | zero => intro n s; rfl
  | succ f ih =>
    intro n s
    unfold dfs
    split_ifs with h1 h2 h3
    · rfl
    · rfl
    · rfl
    · simp only []
      have hf := foldl_inv (fun acc nb => dfs g f nb acc)
        (fun st => st.path = s.path ++ [n])
        (fun st a hst => by simp only []; rw [ih a st]; exact hst) (adj g n)
        ⟨n :: s.visited, s.path ++ [n], s.result⟩ rfl
      simp only [hf]
      exact List.dropLast_concat

theorem dfs_visited_mono (g : List (JStr × List JStr)) :
    ∀ (f : Nat) (n : JStr) (s : DfsState), s.visited ⊆ (dfs g f n s).visited := by
  intro f
  induction f with
  | zero => intro n s; exact fun _ h => h
  | succ f ih =>
    intro n s
    unfold dfs
    split_ifs with h1 h2 h3
    · exact fun _ h => h
    · exact fun _ h => h
    · exact fun _ h => h
    · simp only []
      have hf := foldl_inv (fun acc nb => dfs g f nb acc)
        (fun st => s.visited ⊆ st.visited)
        (fun st a hst => fun x hx => ih a st (hst hx)) (adj g n)
        ⟨n :: s.visited, s.path ++ [n], s.result⟩
        (fun x hx => List.mem_cons_of_mem n hx)
      exact hf

theorem foldl_inv_mem {α σ : Type _} (f : σ → α → σ) (I : σ → Prop) :
    ∀ (l : List α), (∀ s a, a ∈ l → I s → I (f s a)) → ∀ (s : σ), I s → I (l.foldl f s) := by
  intro l
  induction l with
  | nil => intro _ s hs; exact hs
  | cons a t ih =>
    intro h s hs
    exact ih (fun s b hb hI => h s b (List.mem_cons_of_mem a hb) hI) (f s a)
      (h s a (List.mem_cons_self a t) hs)

theorem jsIndexOf_lt_length : ∀ (l : List JStr) (n : JStr), n ∈ l →
    jsIndexOf n l < l.length := by
  intro l
  induction l with
  | nil => intro n h; cases h
  | cons a t ih =>
    intro n h
    by_cases e : a = n
    · simp [jsIndexOf, e]
    · have hm : n ∈ t := by
        cases h with
        | head => exact absurd rfl e
        | tail _ h => exact h
      simp only [jsIndexOf, if_neg e, List.length_cons]
      exact Nat.succ_lt_succ (ih n hm)

theorem head?_drop_jsIndexOf : ∀ (l : List JStr) (n : JStr), n ∈ l →
    (l.drop (jsIndexOf n l)).head? = some n := by
  intro l
  induction l with
  | nil => intro n h; cases h
  | cons a t ih =>
    intro n h
    by_cases e : a = n
    · subst e; simp [jsIndexOf]
    · have hm : n ∈ t := by
        cases h with
        | head => exact absurd rfl e
        | tail _ h => exact h
      simp only [jsIndexOf, if_neg e, List.drop_succ_cons]
      exact ih n hm

theorem getLast?_drop_of_lt : ∀ (l : List JStr) (i : Nat), i < l.length →
    (l.drop i).getLast? = l.getLast? := by
  intro l
  induction l with
  | nil => intro i h; cases h
  | cons a t ih =>
    intro i h
    cases i with
    | zero => rfl
    | succ i =>
      have hi : i < t.length := Nat.lt_of_succ_lt_succ h
      rw [List.drop_succ_cons, ih i hi]
      cases t with
      | nil => cases hi
      | cons b u => simp

theorem chain'_drop {R : JStr → JStr → Prop} :
    ∀ (l : List JStr) (i : Nat), List.Chain' R l → List.Chain' R (l.drop i) := by
  intro l
  induction l with
  | nil => intro i _; simp
  | cons a t ih =>
    intro i h
    cases i with
    | zero => exact h
    | succ i => exact ih i h.tail

/-- The well-formedness of a non-empty value of `findCircularDependencies`:
a closed walk of length at least two whose consecutive elements all follow
real `needs` edges. -/
def GoodCycle (g : List (JStr × List JStr)) (r : List JStr) : Prop :=
  2 ≤ r.length ∧ r.head? = r.getLast? ∧ List.Chain' (Edge g) r

theorem dfs_sound (g : List (JStr × List JStr)) :
    ∀ (f : Nat) (n : JStr) (s : DfsState),
      List.Chain' (Edge g) s.path →
      (∀ x, s.path.getLast? = some x → Edge g x n) →
      (s.result = [] ∨ GoodCycle g s.result) →
      ((dfs g f n s).result = [] ∨ GoodCycle g (dfs g f n s).result) := by
  intro f
  induction f with
  | zero => intro n s _ _ hr; exact hr
  | succ f ih =>
    intro n s hchain hlast hr
    unfold dfs
    split_ifs with h1 h2 h3
    · exact hr
    · -- cycle found: result := s.result ++ (path.drop (indexOf) ++ [n])
      have hres : s.result = [] := List.eq_nil_of_length_eq_zero (Nat.eq_zero_of_not_pos h1)
      right
      simp only [hres, List.nil_append]
      have hidx : jsIndexOf n s.path < s.path.length := jsIndexOf_lt_length _ _ h2
      have hdropne : s.path.drop (jsIndexOf n s.path) ≠ [] := by
        intro hc
        have := List.length_drop (jsIndexOf n s.path) s.path
        rw [hc] at this
        simp only [List.length_nil] at this
        omega
      refine ⟨?_, ?_, ?_⟩
      · have h1' : 1 ≤ (s.path.drop (jsIndexOf n s.path)).length :=
          List.length_pos.mpr hdropne
        rw [List.length_append, List.length_singleton]
        omega
      · rw [List.head?_append_of_ne_nil _ hdropne, head?_drop_jsIndexOf _ _ h2,
          List.getLast?_concat]
      · rw [List.chain'_append]
        refine ⟨chain'_drop _ _ hchain, List.chain'_singleton n, ?_⟩
        intro x hx y hy
        simp only [List.head?_cons, Option.mem_def, Option.some.injEq] at hy
        subst hy
        rw [Option.mem_def, getLast?_drop_of_lt _ _ hidx] at hx
        exact hlast x hx
    · exact hr
    · -- explore: fold over the neighbors, then pop
      have hres : s.result = [] := List.eq_nil_of_length_eq_zero (Nat.eq_zero_of_not_pos h1)
      simp only []
      have hfold := foldl_inv_mem (fun acc nb => dfs g f nb acc)
        (fun acc => acc.path = s.path ++ [n] ∧ (acc.result = [] ∨ GoodCycle g acc.result))
        (adj g n) ?_ ⟨n :: s.visited, s.path ++ [n], s.result⟩ ⟨rfl, hr⟩
      · exact hfold.2
      · intro acc nb hnb hI
        constructor
        · simp only []
          rw [dfs_path]; exact hI.1
        · rcases hI.2 with hacc | hacc
          · refine ih nb acc ?_ ?_ (Or.inl hacc)
            · rw [hI.1, List.chain'_append]
              refine ⟨hchain, List.chain'_singleton n, ?_⟩
              intro x hx y hy
              simp only [List.head?_cons, Option.mem_def, Option.some.injEq] at hy
              subst hy
              exact hlast x hx
            · intro x hx
              rw [hI.1, List.getLast?_concat] at hx
              cases hx
              exact hnb
          · simp only []
            rw [dfs_of_result_ne]
            · exact Or.inr hacc
            · intro hc
              rw [hc] at hacc
              have := hacc.1
              simp at this

theorem findCircularFuel_sound (g : List (JStr × List JStr)) (fuel : Nat) :
    findCircularDependenciesFuel fuel g = [] ∨
      GoodCycle g (findCircularDependenciesFuel fuel g) := by
  unfold findCircularDependenciesFuel
  have h := foldl_inv (fun acc node => if node ∈ acc.visited then acc else dfs g fuel node acc)
    (fun acc => acc.path = [] ∧ (acc.result = [] ∨ GoodCycle g acc.result))
    ?_ (g.map Prod.fst) ⟨[], [], []⟩ ⟨rfl, Or.inl rfl⟩
  · exact h.2
  · intro acc a hI
    simp only []
    split_ifs with hv
    · exact hI
    · constructor
      · rw [dfs_path]; exact hI.1
      · refine dfs_sound g fuel a acc ?_ ?_ hI.2
        · rw [hI.1]; simp
        · intro x hx
          rw [hI.1] at hx
          cases hx

theorem goodCycle_hasCycle (g : List (JStr × List JStr)) (r : List JStr)
    (h : GoodCycle g r) : HasCycle g := by
  obtain ⟨hlen, hhl, hch⟩ := h
  match r, hlen with
  | a :: b :: t, _ =>
    have hchain : List.Chain (Edge g) a (b :: t) := hch
    rw [List.chain_cons] at hchain
    have hne : (b :: t) ≠ [] := by simp
    have hlastEq : a = (b :: t).getLast hne := by
      rw [List.getLast?_eq_getLast _ (by simp), List.getLast_cons hne] at hhl
      simpa using hhl
    have hrtg : Relation.ReflTransGen (Edge g) b a := by
      cases t with
      | nil =>
        simp only [List.getLast_singleton] at hlastEq
        subst hlastEq
        exact Relation.ReflTransGen.refl
      | cons c u =>
        exact List.relationReflTransGen_of_exists_chain (c :: u) hchain.2 hlastEq.symm
    exact ⟨a, Relation.TransGen.head' hchain.1 hrtg⟩

theorem findCircular_acyclic (g : List (JStr × List JStr)) (h : ¬ HasCycle g) :
    findCircularDependencies g = [] := by
  rcases findCircularFuel_sound g (dfsFuel g) with he | hg
  · exact he
  · exact absurd (goodCycle_hasCycle g _ hg) h

/-! ### Completeness of the cycle search

`Black s b` says node `b` has been fully explored: it is in `visited` and
no longer on the current DFS path.  While no cycle has been reported, the
set of black nodes is closed under edges and contains no node that lies on
a cycle; this is the invariant that makes an empty result certify
acyclicity. -/

def Black (s : DfsState) (b : JStr) : Prop := b ∈ s.visited ∧ b ∉ s.path

def DfsInv (g : List (JStr × List JStr)) (s : DfsState) : Prop :=
  s.result = [] → ∀ b, Black s b →
    (∀ y, Edge g b y → Black s y) ∧ ¬ Relation.TransGen (Edge g) b b

def unvisitedCount (g : List (JStr × List JStr)) (s : DfsState) : Nat :=
  ((allNodes g).dedup.filter (fun a => decide (a ∉ s.visited))).length

theorem length_filter_mono {α : Type _} (p q : α → Bool) :
    ∀ (l : List α), (∀ a, p a = true → q a = true) →
      (l.filter p).length ≤ (l.filter q).length := by
  intro l
  induction l with
  | nil => intro _; exact Nat.le_refl 0
  | cons a t ih =>
    intro h
    by_cases hp : p a = true
    · rw [List.filter_cons_of_pos hp, List.filter_cons_of_pos (h a hp)]
      exact Nat.succ_le_succ (ih h)
    · rw [List.filter_cons_of_neg (by simpa using hp)]
      by_cases hq : q a = true
      · rw [List.filter_cons_of_pos hq]
        exact Nat.le_succ_of_le (ih h)
      · rw [List.filter_cons_of_neg (by simpa using hq)]
        exact ih h

theorem length_filter_lt {α : Type _} (p q : α → Bool) :
    ∀ (l : List α) (x : α), x ∈ l → p x = false → q x = true →
      (∀ a, p a = true → q a = true) →
      (l.filter p).length < (l.filter q).length := by
  intro l
  induction l with
  | nil => intro x hx; cases hx
  | cons a t ih =>
    intro x hx hpx hqx h
    by_cases e : a = x
    · subst e
      rw [List.filter_cons_of_neg (by simp [hpx]), List.filter_cons_of_pos hqx]
      exact Nat.lt_succ_of_le (length_filter_mono p q t h)
    · have hxt : x ∈ t := by
        cases hx with
        | head => exact absurd rfl e
        | tail _ hh => exact hh
      by_cases hp : p a = true
      · rw [List.filter_cons_of_pos hp, List.filter_cons_of_pos (h a hp)]
        exact Nat.succ_lt_succ (ih x hxt hpx hqx h)
      · rw [List.filter_cons_of_neg (by simpa using hp)]
        by_cases hq : q a = true
        · rw [List.filter_cons_of_pos hq]
          exact Nat.lt_succ_of_lt (ih x hxt hpx hqx h)
        · rw [List.filter_cons_of_neg (by simpa using hq)]
          exact ih x hxt hpx hqx h

theorem unvisitedCount_mono (g : List (JStr × List JStr)) (s t : DfsState)
    (h : s.visited ⊆ t.visited) : unvisitedCount g t ≤ unvisitedCount g s := by
  apply length_filter_mono
  intro a ha
  simp only [decide_eq_true_eq] at ha ⊢
  intro hc
  exact ha (h hc)

theorem unvisitedCount_le (g : List (JStr × List JStr)) (s : DfsState) :
    unvisitedCount g s ≤ (allNodes g).dedup.length :=
  List.length_filter_le _ _

theorem unvisitedCount_push (g : List (JStr × List JStr)) (s : DfsState) (n : JStr)
    (hn : n ∈ allNodes g) (hv : n ∉ s.visited) :
    unvisitedCount g ⟨n :: s.visited, s.path ++ [n], s.result⟩ < unvisitedCount g s := by
  apply length_filter_lt _ _ _ n (List.mem_dedup.mpr hn)
  · simp
  · simp [hv]
  · intro a ha
    simp only [decide_eq_true_eq] at ha ⊢
    intro hc
    exact ha (List.mem_cons_of_mem n hc)

theorem dfs_black_mono (g : List (JStr × List JStr)) :
    ∀ (f : Nat) (n : JStr) (s : DfsState) (b : JStr),
      Black s b → Black (dfs g f n s) b := by
  intro f
  induction f with
  | zero => exact fun n s b h => h
  | succ f ih =>
    intro n s b hb
    unfold dfs
    split_ifs with h1 h2 h3
    · exact hb
    · exact ⟨hb.1, hb.2⟩
    · exact hb
    · simp only []
      have hbn : b ≠ n := fun e => h3 (e ▸ hb.1)
      have hb1 : Black ⟨n :: s.visited, s.path ++ [n], s.result⟩ b := by
        refine ⟨List.mem_cons_of_mem _ hb.1, ?_⟩
        intro hc
        rcases List.mem_append.mp hc with h | h
        · exact hb.2 h
        · exact hbn (List.mem_singleton.mp h)
      have hfold := foldl_inv (fun acc nb => dfs g f nb acc) (fun st => Black st b)
        (fun st a hst => ih a st b hst) (adj g n) _ hb1
      exact ⟨hfold.1, fun hc => hfold.2 ((List.dropLast_sublist _).subset hc)⟩

theorem foldl_dfs_of_result_ne (g : List (JStr × List JStr)) (f : Nat) :
    ∀ (l : List JStr) (st : DfsState), st.result ≠ [] →
      l.foldl (fun a nb => dfs g f nb a) st = st := by
  intro l
  induction l with
  | nil => intro st _; rfl
  | cons a t ih =>
    intro st h
    simp only [List.foldl_cons]
    rw [dfs_of_result_ne g f a st h]
    exact ih st h

theorem reflTransGen_mem_closed (g : List (JStr × List JStr)) (S : JStr → Prop)
    (hS : ∀ x, S x → ∀ y, Edge g x y → S y) :
    ∀ {a b : JStr}, Relation.ReflTransGen (Edge g) a b → S a → S b := by
  intro a b h
  induction h with
  | refl => exact fun h => h
  | tail _ he ihh => exact fun ha => hS _ (ihh ha) _ he

theorem no_loop_of_closed (g : List (JStr × List JStr)) (S : JStr → Prop) (n : JStr)
    (hS : ∀ x, S x → ∀ y, Edge g x y → S y)
    (hsucc : ∀ y, Edge g n y → S y)
    (hn : ¬ S n) : ¬ Relation.TransGen (Edge g) n n := by
  intro h
  rcases Relation.TransGen.head'_iff.mp h with ⟨b, hb, hrt⟩
  exact hn (reflTransGen_mem_closed g S hS hrt (hsucc b hb))

theorem lookup_mem_snd : ∀ (g : List (JStr × List JStr)) (n : JStr) (l : List JStr),
    g.lookup n = some l → l ∈ g.map Prod.snd := by
  intro g
  induction g with
  | nil => intro n l h; cases h
  | cons p t ih =>
    intro n l h
    match p with
    | (k, v) =>
      by_cases e : n = k
      · subst e
        simp only [List.lookup, beq_self_eq_true, Option.some.injEq] at h
        subst h
        exact List.mem_cons_self _ _
      · have hne : (n == k) = false := beq_eq_false_iff_ne.mpr e
        simp only [List.lookup, hne] at h
        exact List.mem_cons_of_mem _ (ih n l h)

theorem mem_allNodes_of_mem_adj (g : List (JStr × List JStr)) (n nb : JStr)
    (h : nb ∈ adj g n) : nb ∈ allNodes g := by
  unfold adj at h
  cases hl : g.lookup n with
  | none => rw [hl] at h; cases h
  | some l =>
    rw [hl] at h
    simp only [Option.getD_some] at h
    exact List.mem_append_right _ (List.mem_flatten.mpr ⟨l, lookup_mem_snd g n l hl, h⟩)

theorem dfs_fold_aux (g : List (JStr × List JStr)) (f : Nat)
    (IH : ∀ (n : JStr) (s : DfsState),
      unvisitedCount g s < f → n ∈ allNodes g → s.path ⊆ s.visited → DfsInv g s →
      DfsInv g (dfs g f n s) ∧ ((dfs g f n s).result = [] → Black (dfs g f n s) n)) :
    ∀ (l : List JStr) (acc : DfsState),
      (∀ nb ∈ l, nb ∈ allNodes g) →
      unvisitedCount g acc < f →
      acc.path ⊆ acc.visited →
      DfsInv g acc →
      (l.foldl (fun a nb => dfs g f nb a) acc).path = acc.path ∧
        acc.visited ⊆ (l.foldl (fun a nb => dfs g f nb a) acc).visited ∧
        DfsInv g (l.foldl (fun a nb => dfs g f nb a) acc) ∧
        ((l.foldl (fun a nb => dfs g f nb a) acc).result = [] →
          ∀ nb ∈ l, Black (l.foldl (fun a nb => dfs g f nb a) acc) nb) := by
  intro l
  induction l with
  | nil =>
    intro acc _ _ _ hInv
    exact ⟨rfl, fun _ h => h, hInv, fun _ nb h => absurd h (List.not_mem_nil nb)⟩
  | cons a t ihl =>
    intro acc hmem hcount hps hInv
    obtain ⟨hI1, hB1⟩ := IH a acc hcount (hmem a (List.mem_cons_self a t)) hps hInv
    have hpath1 : (dfs g f a acc).path = acc.path := dfs_path g f a acc
    have hvis1 : acc.visited ⊆ (dfs g f a acc).visited := dfs_visited_mono g f a acc
    have hcount1 : unvisitedCount g (dfs g f a acc) ≤ unvisitedCount g acc :=
      unvisitedCount_mono g acc _ hvis1
    have hps1 : (dfs g f a acc).path ⊆ (dfs g f a acc).visited := by
      rw [hpath1]
      exact fun x hx => hvis1 (hps hx)
    obtain ⟨hp, hv, hI, hB⟩ := ihl (dfs g f a acc)
      (fun nb hnb => hmem nb (List.mem_cons_of_mem a hnb))
      (Nat.lt_of_le_of_lt hcount1 hcount) hps1 hI1
    simp only [List.foldl_cons] at *
    refine ⟨by rw [hp, hpath1], fun x hx => hv (hvis1 hx), hI, ?_⟩
    intro hres nb hnb
    have hres1 : (dfs g f a acc).result = [] := by
      by_contra hne
      rw [foldl_dfs_of_result_ne g f t _ hne] at hres
      exact hne hres
    cases hnb with
    | head =>
      have hBa : Black (dfs g f a acc) a := hB1 hres1
      exact foldl_inv (fun st nb => dfs g f nb st) (fun st => Black st a)
        (fun st x hst => dfs_black_mono g f x st a hst) t _ hBa
    | tail _ hnb => exact hB hres nb hnb

theorem dfs_main (g : List (JStr × List JStr)) :
    ∀ (f : Nat) (n : JStr) (s : DfsState),
      unvisitedCount g s < f → n ∈ allNodes g → s.path ⊆ s.visited → DfsInv g s →
      DfsInv g (dfs g f n s) ∧ ((dfs g f n s).result = [] → Black (dfs g f n s) n) := by
  intro f
  induction f with
  | zero => intro n s hf; exact absurd hf (Nat.not_lt_zero _)
  | succ f ih =>
    intro n s hf hn hps hInv
    unfold dfs
    split_ifs with h1 h2 h3
    · refine ⟨hInv, ?_⟩
      intro hres
      rw [hres] at h1
      simp at h1
    · constructor
      · intro hres
        exfalso
        have : s.result ++ (s.path.drop (jsIndexOf n s.path) ++ [n]) ≠ [] := by
          simp
        exact this hres
      · intro hres
        exfalso
        have : s.result ++ (s.path.drop (jsIndexOf n s.path) ++ [n]) ≠ [] := by
          simp
        exact this hres
    · exact ⟨hInv, fun _ => ⟨h3, h2⟩⟩
    · -- explore-and-pop branch
      simp only []
      have hres0 : s.result = [] := List.eq_nil_of_length_eq_zero (Nat.eq_zero_of_not_pos h1)
      have hInv1 : DfsInv g ⟨n :: s.visited, s.path ++ [n], s.result⟩ := by
        intro hres b hb
        have hbn : b ≠ n := by
          intro e
          subst e
          exact hb.2 (List.mem_append_right _ (List.mem_singleton_self b))
        have hbs : Black s b := by
          refine ⟨?_, ?_⟩
          · rcases List.mem_cons.mp hb.1 with e | hbv
            · exact absurd e hbn
            · exact hbv
          · exact fun hc => hb.2 (List.mem_append_left _ hc)
        obtain ⟨hcl, hnl⟩ := hInv hres b hbs
        refine ⟨?_, hnl⟩
        intro y hy
        obtain ⟨hy1, hy2⟩ := hcl y hy
        have hyn : y ≠ n := fun e => h3 (e ▸ hy1)
        refine ⟨List.mem_cons_of_mem _ hy1, ?_⟩
        intro hc
        rcases List.mem_append.mp hc with hc | hc
        · exact hy2 hc
        · exact hyn (List.mem_singleton.mp hc)
      have hps1 : (s.path ++ [n]) ⊆ (n :: s.visited) := by
        intro x hx
        rcases List.mem_append.mp hx with hx | hx
        · exact List.mem_cons_of_mem _ (hps hx)
        · exact (List.mem_singleton.mp hx) ▸ List.mem_cons_self n s.visited
      have hcount1 : unvisitedCount g ⟨n :: s.visited, s.path ++ [n], s.result⟩ < f :=
        Nat.lt_of_lt_of_le (unvisitedCount_push g s n hn h3) (Nat.lt_succ_iff.mp hf)
      obtain ⟨hp2, hv2, hI2, hB2⟩ := dfs_fold_aux g f ih (adj g n)
        ⟨n :: s.visited, s.path ++ [n], s.result⟩
        (fun nb hnb => mem_allNodes_of_mem_adj g n nb hnb)
        hcount1 hps1 hInv1
      constructor
      · -- DfsInv after the pop
        intro hres b hb
        simp only [] at hres hb
        have hbpath : b ∉ s.path := by
          have := hb.2
          rw [hp2] at this
          simp only [List.dropLast_concat] at this
          exact this
        by_cases e : b = n
        · subst e
          have hsucc : ∀ y, Edge g b y → Black ((adj g b).foldl (fun a nb => dfs g f nb a)
              ⟨b :: s.visited, s.path ++ [b], s.result⟩) y := by
            intro y hy
            exact hB2 hres y hy
          refine ⟨?_, ?_⟩
          · intro y hy
            obtain ⟨hy1, hy2⟩ := hsucc y hy
            refine ⟨hy1, ?_⟩
            simp only []
            exact fun hc => hy2 ((List.dropLast_sublist _).subset hc)
          · refine no_loop_of_closed g
              (Black ((adj g b).foldl (fun a nb => dfs g f nb a)
                ⟨b :: s.visited, s.path ++ [b], s.result⟩)) b
              ?_ hsucc ?_
            · intro x hx y hy
              exact (hI2 hres x hx).1 y hy
            · intro hc
              apply hc.2
              rw [hp2]
              exact List.mem_append_right _ (List.mem_singleton_self b)
        · -- b was already black before the pop
          have hbb : Black ((adj g n).foldl (fun a nb => dfs g f nb a)
              ⟨n :: s.visited, s.path ++ [n], s.result⟩) b := by
            refine ⟨hb.1, ?_⟩
            rw [hp2]
            intro hc
            rcases List.mem_append.mp hc with hc | hc
            · exact hbpath hc
            · exact e (List.mem_singleton.mp hc)
          obtain ⟨hcl, hnl⟩ := hI2 hres b hbb
          refine ⟨?_, hnl⟩
          intro y hy
          obtain ⟨hy1, hy2⟩ := hcl y hy
          exact ⟨hy1, fun hc => hy2 ((List.dropLast_sublist _).subset hc)⟩
      · -- the explored node is black after the pop
        intro hres
        refine ⟨hv2 (List.mem_cons_self n s.visited), ?_⟩
        rw [hp2]
        simp only [List.dropLast_concat]
        exact h2

theorem outer_step_of_result_ne (g : List (JStr × List JStr)) (fuel : Nat)
    (st : DfsState) (node : JStr) (h : st.result ≠ []) :
    (if node ∈ st.visited then st else dfs g fuel node st) = st := by
  split_ifs with hv
  · rfl
  · exact dfs_of_result_ne g fuel node st h

theorem outer_foldl_of_result_ne (g : List (JStr × List JStr)) (fuel : Nat) :
    ∀ (l : List JStr) (st : DfsState), st.result ≠ [] →
      l.foldl (fun acc node => if node ∈ acc.visited then acc else dfs g fuel node acc) st = st := by
  intro l
  induction l with
  | nil => intro st _; rfl
  | cons a t ih =>
    intro st h
    simp only [List.foldl_cons]
    rw [outer_step_of_result_ne g fuel st a h]
    exact ih st h

theorem outer_fold_aux (g : List (JStr × List JStr)) :
    ∀ (l : List JStr) (acc : DfsState),
      (∀ k ∈ l, k ∈ allNodes g) →
      acc.path = [] →
      DfsInv g acc →
      (l.foldl (fun a node => if node ∈ a.visited then a else dfs g (dfsFuel g) node a) acc).path = [] ∧
        DfsInv g (l.foldl (fun a node => if node ∈ a.visited then a else dfs g (dfsFuel g) node a) acc) ∧
        ((l.foldl (fun a node => if node ∈ a.visited then a else dfs g (dfsFuel g) node a) acc).result = [] →
          ∀ k ∈ l, Black (l.foldl (fun a node => if node ∈ a.visited then a else dfs g (dfsFuel g) node a) acc) k) := by
  intro l
  induction l with
  | nil =>
    intro acc _ hp hInv
    exact ⟨hp, hInv, fun _ k hk => absurd hk (List.not_mem_nil k)⟩
  | cons a t ih =>
    intro acc hmem hp hInv
    have hcount : unvisitedCount g acc < dfsFuel g :=
      Nat.lt_succ_of_le (unvisitedCount_le g acc)
    have hstep : ((if a ∈ acc.visited then acc else dfs g (dfsFuel g) a acc)).path = [] ∧
        DfsInv g (if a ∈ acc.visited then acc else dfs g (dfsFuel g) a acc) ∧
        ((if a ∈ acc.visited then acc else dfs g (dfsFuel g) a acc).result = [] →
          Black (if a ∈ acc.visited then acc else dfs g (dfsFuel g) a acc) a) := by
      split_ifs with hv
      · exact ⟨hp, hInv, fun _ => ⟨hv, by rw [hp]; exact List.not_mem_nil a⟩⟩
      · obtain ⟨hI, hB⟩ := dfs_main g (dfsFuel g) a acc hcount
          (hmem a (List.mem_cons_self a t)) (by rw [hp]; exact List.nil_subset _) hInv
        exact ⟨by rw [dfs_path]; exact hp, hI, hB⟩
    obtain ⟨hp1, hI1, hB1⟩ := hstep
    obtain ⟨hp2, hI2, hB2⟩ := ih (if a ∈ acc.visited then acc else dfs g (dfsFuel g) a acc)
      (fun k hk => hmem k (List.mem_cons_of_mem a hk)) hp1 hI1
    simp only [List.foldl_cons]
    refine ⟨hp2, hI2, ?_⟩
    intro hres k hk
    have hres1 : (if a ∈ acc.visited then acc else dfs g (dfsFuel g) a acc).result = [] := by
      by_contra hne
      rw [outer_foldl_of_result_ne g (dfsFuel g) t _ hne] at hres
      exact hne hres
    cases hk with
    | head =>
      have hBa := hB1 hres1
      exact foldl_inv (fun st node => if node ∈ st.visited then st else dfs g (dfsFuel g) node st)
        (fun st => Black st a)
        (fun st node hst => by
          simp only []
          split_ifs with hv
          · exact hst
          · exact dfs_black_mono g (dfsFuel g) node st a hst) t _ hBa
    | tail _ hk => exact hB2 hres k hk

theorem mem_keys_of_adj_ne (g : List (JStr × List JStr)) (n : JStr)
    (h : adj g n ≠ []) : n ∈ g.map Prod.fst := by
  induction g with
  | nil => exact absurd rfl h
  | cons p t ih =>
    match p with
    | (k, v) =>
      by_cases e : n = k
      · subst e
        exact List.mem_cons_self _ _
      · have hne : (n == k) = false := beq_eq_false_iff_ne.mpr e
        have : adj t n ≠ [] := by
          intro hc
          apply h
          unfold adj at hc ⊢
          simp only [List.lookup, hne]
          exact hc
        exact List.mem_cons_of_mem _ (ih this)

theorem findCircular_complete (g : List (JStr × List JStr)) (h : HasCycle g) :
    findCircularDependencies g ≠ [] := by
  intro hres
  obtain ⟨n, hloop⟩ := h
  obtain ⟨b, hb, _⟩ := Relation.TransGen.head'_iff.mp hloop
  have hadj : adj g n ≠ [] := by
    intro hc
    rw [Edge, hc] at hb
    exact List.not_mem_nil b hb
  have hkeys : n ∈ g.map Prod.fst := mem_keys_of_adj_ne g n hadj
  have hInv0 : DfsInv g (⟨[], [], []⟩ : DfsState) := by
    intro _ b hb
    exact absurd hb.1 (List.not_mem_nil b)
  obtain ⟨hp, hI, hB⟩ := outer_fold_aux g (g.map Prod.fst) ⟨[], [], []⟩
    (fun k hk => List.mem_append_left _ hk) rfl hInv0
  have hres' : ((g.map Prod.fst).foldl
      (fun a node => if node ∈ a.visited then a else dfs g (dfsFuel g) node a)
      ⟨[], [], []⟩).result = [] := hres
  exact (hI hres' n (hB hres' n hkeys)).2 hloop

/-! ### Fuel stability: the recursion depth bound `dfsFuel` is sufficient

`dfs` never exhausts fuel that exceeds the number of still-unvisited node
names, because a node is marked visited before its neighbors are explored
and visited nodes are skipped.  Consequently the result of
`findCircularDependenciesFuel` is the same for every fuel of at least
`dfsFuel g` — the embedded recursion is total on every finite graph. -/

theorem dfs_fuel_stable (g : List (JStr × List JStr)) :
    ∀ (f1 f2 : Nat) (n : JStr) (s : DfsState),
      unvisitedCount g s < f1 → unvisitedCount g s < f2 → n ∈ allNodes g →
      dfs g f1 n s = dfs g f2 n s := by
  intro f1
  induction f1 with
  | zero => intro f2 n s h1; exact absurd h1 (Nat.not_lt_zero _)
  | succ f1 ih =>
    intro f2 n s h1 h2 hn
    cases f2 with
    | zero => exact absurd h2 (Nat.not_lt_zero _)
    | succ f2 =>
      unfold dfs
      split_ifs with hc1 hc2 hc3
      · rfl
      · rfl
      · rfl
      · simp only []
        have haux : ∀ (l : List JStr) (acc : DfsState),
            (∀ nb ∈ l, nb ∈ allNodes g) →
            unvisitedCount g acc < f1 → unvisitedCount g acc < f2 →
            l.foldl (fun a nb => dfs g f1 nb a) acc = l.foldl (fun a nb => dfs g f2 nb a) acc := by
          intro l
          induction l with
          | nil => intro acc _ _ _; rfl
          | cons a t ihl =>
            intro acc hmem hcl hcr
            simp only [List.foldl_cons]
            rw [ih f2 a acc hcl hcr (hmem a (List.mem_cons_self a t))]
            apply ihl
            · exact fun nb hnb => hmem nb (List.mem_cons_of_mem a hnb)
            · exact Nat.lt_of_le_of_lt
                (unvisitedCount_mono g acc _ (dfs_visited_mono g f2 a acc)) hcl
            · exact Nat.lt_of_le_of_lt
                (unvisitedCount_mono g acc _ (dfs_visited_mono g f2 a acc)) hcr
        have hlt1 : unvisitedCount g ⟨n :: s.visited, s.path ++ [n], s.result⟩ < f1 :=
          Nat.lt_of_lt_of_le (unvisitedCount_push g s n hn hc3) (Nat.lt_succ_iff.mp h1)
        have hlt2 : unvisitedCount g ⟨n :: s.visited, s.path ++ [n], s.result⟩ < f2 :=
          Nat.lt_of_lt_of_le (unvisitedCount_push g s n hn hc3) (Nat.lt_succ_iff.mp h2)
        rw [haux (adj g n) ⟨n :: s.visited, s.path ++ [n], s.result⟩
          (fun nb hnb => mem_allNodes_of_mem_adj g n nb hnb) hlt1 hlt2]

theorem findCircularFuel_stable (g : List (JStr × List JStr)) (f : Nat)
    (hf : dfsFuel g ≤ f) :
    findCircularDependenciesFuel f g = findCircularDependencies g := by
  unfold findCircularDependencies findCircularDependenciesFuel
  have haux : ∀ (l : List JStr) (acc : DfsState),
      (∀ k ∈ l, k ∈ allNodes g) →
      l.foldl (fun a node => if node ∈ a.visited then a else dfs g f node a) acc =
        l.foldl (fun a node => if node ∈ a.visited then a else dfs g (dfsFuel g) node a) acc := by
    intro l
    induction l with
    | nil => intro acc _; rfl
    | cons a t ihl =>
      intro acc hmem
      simp only [List.foldl_cons]
      have hstep : (if a ∈ acc.visited then acc else dfs g f a acc) =
          (if a ∈ acc.visited then acc else dfs g (dfsFuel g) a acc) := by
        split_ifs with hv
        · rfl
        · exact dfs_fuel_stable g f (dfsFuel g) a acc
            (Nat.lt_of_lt_of_le (Nat.lt_succ_of_le (unvisitedCount_le g acc)) hf)
            (Nat.lt_succ_of_le (unvisitedCount_le g acc))
            (hmem a (List.mem_cons_self a t))
      rw [hstep]
      exact ihl _ (fun k hk => hmem k (List.mem_cons_of_mem a hk))
  rw [haux (g.map Prod.fst) ⟨[], [], []⟩ (fun k hk => List.mem_append_left _ hk)]

/-! ### Claim theorems for the cycle detector -/

/-- C1: for every finite dependency graph that contains a cycle among its
keys, `findCircularDependencies` returns a non-empty sequence whose first
and last elements are equal, and every consecutive pair `(x, y)` of the
sequence satisfies `y ∈ graph[x]`. -/
theorem findCircularDependencies_cycle_sound (g : List (JStr × List JStr))
    (h : HasCycle g) :
    findCircularDependencies g ≠ [] ∧
      (findCircularDependencies g).head? = (findCircularDependencies g).getLast? ∧
      List.Chain' (Edge g) (findCircularDependencies g) := by
  have hne := findCircular_complete g h
  rcases findCircularFuel_sound g (dfsFuel g) with he | hg
  · exact absurd he hne
  · exact ⟨hne, hg.2.1, hg.2.2⟩

def cycleGraphEx : List (JStr × List JStr) := [(['a'], [['b']]), (['b'], [['a']])]

theorem findCircularDependencies_cycle_sound_witness :
    HasCycle cycleGraphEx ∧
      (findCircularDependencies cycleGraphEx ≠ [] ∧
        (findCircularDependencies cycleGraphEx).head? =
          (findCircularDependencies cycleGraphEx).getLast? ∧
        List.Chain' (Edge cycleGraphEx) (findCircularDependencies cycleGraphEx)) :=
  have hc : HasCycle cycleGraphEx :=
    ⟨['a'], Relation.TransGen.head
      (show Edge cycleGraphEx ['a'] ['b'] by decide)
      (Relation.TransGen.single (show Edge cycleGraphEx ['b'] ['a'] by decide))⟩
  ⟨hc, findCircularDependencies_cycle_sound cycleGraphEx hc⟩

/-- C2: for every finite dependency graph with no cycle among its keys,
`findCircularDependencies` returns the empty sequence. -/
theorem findCircularDependencies_dag_empty (g : List (JStr × List JStr))
    (h : ¬ HasCycle g) : findCircularDependencies g = [] :=
  findCircular_acyclic g h

def dagGraphEx : List (JStr × List JStr) := [(['a'], [['b']]), (['b'], [])]

theorem dagGraphEx_no_cycle : ¬ HasCycle dagGraphEx := by
  have hE : ∀ x y : JStr, Edge dagGraphEx x y → x = ['a'] ∧ y = ['b'] := by
    intro x y h
    have h' : y ∈ adj dagGraphEx x := h
    by_cases e1 : x = ['a']
    · subst e1
      have ha : adj dagGraphEx ['a'] = [['b']] := rfl
      rw [ha] at h'
      simp only [List.mem_singleton] at h'
      exact ⟨rfl, h'⟩
    · by_cases e2 : x = ['b']
      · subst e2
        have hb : adj dagGraphEx ['b'] = [] := rfl
        rw [hb] at h'
        cases h'
      · have hn : adj dagGraphEx x = [] := by
          unfold adj dagGraphEx
          have b1 : (x == ['a']) = false := beq_eq_false_iff_ne.mpr e1
          have b2 : (x == ['b']) = false := beq_eq_false_iff_ne.mpr e2
          simp [List.lookup, b1, b2]
        rw [hn] at h'
        cases h'
  rintro ⟨n, hloop⟩
  obtain ⟨m, hm, hrt⟩ := Relation.TransGen.head'_iff.mp hloop
  obtain ⟨hn, hm'⟩ := hE n m hm
  subst hm'
  rcases Relation.ReflTransGen.cases_head hrt with he | ⟨c, hc, _⟩
  · rw [hn] at he
    exact absurd he (by decide)
  · exact absurd (hE _ _ hc).1 (by decide)

theorem findCircularDependencies_dag_empty_witness :
    ¬ HasCycle dagGraphEx ∧ findCircularDependencies dagGraphEx = [] :=
  ⟨dagGraphEx_no_cycle, findCircularDependencies_dag_empty dagGraphEx dagGraphEx_no_cycle⟩

/-- C9: the embedded recursion of `findCircularDependencies` terminates on
every finite input graph: the result computed with the fixed fuel
`dfsFuel g` agrees with the result at every larger fuel (the bound is
never exhausted, because each node's DFS body runs at most once — nodes
are marked visited before their neighbors are explored and visited nodes
are skipped), and a neighbor id absent from the graph's keys is treated as
having no outgoing edges. -/
theorem findCircularDependencies_terminates (g : List (JStr × List JStr)) (f : Nat)
    (hf : dfsFuel g ≤ f) :
    findCircularDependenciesFuel f g = findCircularDependencies g ∧
      (∀ n, g.lookup n = none → adj g n = []) := by
  refine ⟨findCircularFuel_stable g f hf, ?_⟩
  intro n hn
  unfold adj
  rw [hn]
  rfl

theorem findCircularDependencies_terminates_witness :
    dfsFuel cycleGraphEx ≤ 42 ∧
      (findCircularDependenciesFuel 42 cycleGraphEx = findCircularDependencies cycleGraphEx ∧
        (∀ n, cycleGraphEx.lookup n = none → adj cycleGraphEx n = [])) :=
  ⟨by decide, findCircularDependencies_terminates cycleGraphEx 42 (by decide)⟩

/-! ## A model of the JavaScript values flowing through the analyzers

The analyzers receive the value produced by `js-yaml`'s `load`: plain
objects, arrays, strings, numbers, booleans and `null`.  `getProp` is own
property access (`undefined` is `Option.none`); numbers are modelled as
integers (the workflows under analysis carry integer scalars only).
Property access on non-objects and inherited prototype properties are
outside the modelled universe. -/

inductive JsVal where
  | null
  | bool (b : Bool)
  | num (n : Int)
  | str (s : JStr)
  | arr (elems : List JsVal)
  | obj (fields : List (JStr × JsVal))

/-- JS truthiness of a value. -/
def truthy : JsVal → Bool
  | .null => false
  | .bool b => b
  | .num n => n != 0
  | .str s => !s.isEmpty
  | .arr _ => true
  | .obj _ => true

/-- Own-property access `v[k]`; `none` is JS `undefined`. -/
def getProp : JsVal → JStr → Option JsVal
  | .obj fields, k => fields.lookup k
  | _, _ => none

/-- `Object.keys` for the modelled values (objects only; the analyzers
apply it to parsed mappings). -/
def objKeys : JsVal → List JStr
  | .obj fields => fields.map Prod.fst
  | _ => []

/-- JS `a || b` where `a` may be absent (`undefined`). -/
def jsOr (v : Option JsVal) (dflt : JsVal) : JsVal :=
  match v with
  | some x => if truthy x then x else dflt
  | none => dflt

/-- Truthiness of `v[k]` (falsy when absent). -/
def propTruthy (v : JsVal) (k : JStr) : Bool :=
  match getProp v k with
  | some x => truthy x
  | none => false

/-! ### `JSON.stringify` -/

def hexDigit (n : Nat) : Char :=
  if n < 10 then Char.ofNat (48 + n) else Char.ofNat (87 + n)

/-- The escaping `JSON.stringify` applies inside string literals. -/
def escapeChar (c : Char) : JStr :=
  if c = '\x22' then ['\\', '\x22']
  else if c = '\\' then ['\\', '\\']
  else if c = '\x08' then ['\\', 'b']
  else if c = '\x0c' then ['\\', 'f']
  else if c = '\n' then ['\\', 'n']
  else if c = '\r' then ['\\', 'r']
  else if c = '\t' then ['\\', 't']
  else if c.toNat < 32 then
    ['\\', 'u', '0', '0', hexDigit (c.toNat / 16), hexDigit (c.toNat % 16)]
  else [c]

def quoteStr (s : JStr) : JStr :=
  '\x22' :: (s.flatMap escapeChar) ++ ['\x22']

mutual

def jsonStringify : JsVal → JStr
  | .null => ("null".data)
  | .bool true => ("true".data)
  | .bool false => ("false".data)
  | .num n => (toString n).data
  | .str s => quoteStr s
  | .arr l => '[' :: (jsonStringifyArr l ++ [']'])
  | .obj l => '\x7b' :: (jsonStringifyObj l ++ ['\x7d'])

def jsonStringifyArr : List JsVal → JStr
  | [] => []
  | [v] => jsonStringify v
  | v :: rest => jsonStringify v ++ ',' :: jsonStringifyArr rest

def jsonStringifyObj : List (JStr × JsVal) → JStr
  | [] => []
  | [(k, v)] => quoteStr k ++ ':' :: jsonStringify v
  | (k, v) :: rest => quoteStr k ++ ':' :: jsonStringify v ++ ',' :: jsonStringifyObj rest

end

/-! ### Character classes and string utilities -/

/-- JS `\s` and `trim` whitespace (ASCII range). -/
def isWs (c : Char) : Bool :=
  c == ' ' || c == '\t' || c == '\n' || c == '\r' || c == '\x0b' || c == '\x0c'

def trimStartJs (s : JStr) : JStr := s.dropWhile isWs

def trimEndJs (s : JStr) : JStr := (s.reverse.dropWhile isWs).reverse

/-- `String.prototype.trim`. -/
def trimJs (s : JStr) : JStr := trimEndJs (trimStartJs s)

/-- `[A-Z_]` of the shell-variable regexes. -/
def isUpperU (c : Char) : Bool :=
  (('A' ≤ c) && (c ≤ 'Z')) || c == '_'

/-- `[a-zA-Z0-9+/]` of the hardcoded-secret regex. -/
def isB64 (c : Char) : Bool :=
  (('a' ≤ c) && (c ≤ 'z')) || (('A' ≤ c) && (c ≤ 'Z')) ||
    (('0' ≤ c) && (c ≤ '9')) || c == '+' || c == '/'

/-! ### The expression scanner for `/\$\x7b\x7b\s*[^\x7d]+\s*\x7d\x7d/g`

After the literal opener the greedy `[^\x7d]+` runs to the first closing
brace; the `\s*` between it and the closer can only match the empty string
(a shorter `[^\x7d]+` run leaves a non-whitespace brace character under
`\s*`), so the regex matches at a position exactly when the opener is
followed by a non-empty run of non-brace characters and then two closing
braces.  The global flag resumes scanning right after each match and
advances one character past failed positions. -/

def exprMatchAt : JStr → Option (JStr × JStr)
  | '$' :: '\x7b' :: '\x7b' :: rest =>
    match rest.dropWhile (fun c => c != '\x7d') with
    | '\x7d' :: '\x7d' :: suffix =>
      let mid := rest.takeWhile (fun c => c != '\x7d')
      if mid.isEmpty then none
      else some ('$' :: '\x7b' :: '\x7b' :: (mid ++ ['\x7d', '\x7d']), suffix)
    | _ => none
  | _ => none

theorem exprMatchAt_suffix_lt (s m suf : JStr) (h : exprMatchAt s = some (m, suf)) :
    suf.length < s.length := by
  unfold exprMatchAt at h
  split at h
  next rest =>
    split at h
    next suffix heq =>
      simp only [] at h
      split at h
      · exact absurd h (by simp)
      · simp only [Option.some.injEq, Prod.mk.injEq] at h
        have hlen : (rest.dropWhile (fun c => c != '\x7d')).length ≤ rest.length :=
          (List.dropWhile_sublist _).length_le
      
        rw [heq] at hlen
        simp only [List.length_cons] at hlen
        have := h.2
        subst this
        simp only [List.length_cons]
        omega
    next => exact absurd h (by simp)
  next => exact absurd h (by simp)

/-- The global scan: try a match at each position, resuming after each
match.  Every step consumes at least one character, so `s.length` steps
of fuel are never exhausted (`extractExprsAux_stable`); the fuel only
makes the recursion structural so that it reduces inside the kernel. -/
def extractExprsAux : Nat → JStr → List JStr
  | 0, _ => []
  | fuel+1, s =>
    match s with
    | [] => []
    | c :: rest =>
      match exprMatchAt (c :: rest) with
      | some (m, suffix) => m :: extractExprsAux fuel suffix
      | none => extractExprsAux fuel rest

theorem extractExprsAux_stable : ∀ (f1 f2 : Nat) (s : JStr),
    s.length ≤ f1 → s.length ≤ f2 → extractExprsAux f1 s = extractExprsAux f2 s := by
  intro f1
  induction f1 with
  | zero =>
    intro f2 s h1 _
    have hs : s = [] := List.eq_nil_of_length_eq_zero (Nat.le_zero.mp h1)
    subst hs
    cases f2 <;> rfl
  | succ f1 ih =>
    intro f2 s h1 h2
    cases f2 with
    | zero =>
      have hs : s = [] := List.eq_nil_of_length_eq_zero (Nat.le_zero.mp h2)
      subst hs
      rfl
    | succ f2 =>
      cases s with
      | nil => rfl
      | cons c rest =>
        have hr : rest.length ≤ f1 := by
          simp only [List.length_cons] at h1
          omega
        have hr2 : rest.length ≤ f2 := by
          simp only [List.length_cons] at h2
          omega
        cases h : exprMatchAt (c :: rest) with
        | some p =>
          obtain ⟨m, suffix⟩ := p
          have hlt := exprMatchAt_suffix_lt _ _ _ h
          simp only [List.length_cons] at hlt
          simp only [extractExprsAux, h]
          rw [ih f2 suffix (by omega) (by omega)]
        | none =>
          simp only [extractExprsAux, h]
          exact ih f2 rest hr hr2

def extractExprs (s : JStr) : List JStr := extractExprsAux s.length s

/-- `match.replace(/\$\x7b\x7b\s*/, '').replace(/\s*\x7d\x7d/, '').trim()`
applied to a produced match `$\x7b\x7b ++ mid ++ \x7d\x7d`: the first
replace removes the opener together with `mid`'s leading whitespace; the
second removes `mid`'s trailing whitespace run and the closer (the only
place the pattern matches, as `mid` has no brace); the final `trim` is
then idempotent — the extracted name is `mid` trimmed. -/
def exprVarName (m : JStr) : JStr :=
  trimJs ((m.drop 3).dropLast.dropLast)

/-- Truthiness of `workflowStr.match` with the hardcoded-secret regex
(40 class characters, or 50 or more — the second alternative is subsumed
by the first): a match exists exactly when some maximal run of
`[a-zA-Z0-9+/]` characters has length at least 40. -/
def hasB64Run : JStr → Bool
  | [] => false
  | c :: rest =>
    (40 ≤ ((c :: rest).takeWhile isB64).length) || hasB64Run rest

/-! ## The rule-based validator (`checkWorkflowForErrors`)

Each block of the source function appends its diagnostics to a single
array; the embedding concatenates one list per block, in source order. -/

structure WorkflowError where
  type : JStr
  message : JStr
deriving DecidableEq, Repr

def errType : JStr := ("error".data)

def warnType : JStr := ("warning".data)

def infoType : JStr := ("info".data)

def jobsKey : JStr := ("jobs".data)

def needsKey : JStr := ("needs".data)

def runsOnKey : JStr := ("runs-on".data)

def envKey : JStr := ("env".data)

/-- `Array.prototype.join(sep)`. -/
def joinSep (sep : JStr) : List JStr → JStr
  | [] => []
  | [x] => x
  | x :: rest => x ++ sep ++ joinSep sep rest

def msgNoJobs : JStr := ("Workflow has no jobs defined".data)

def msgCircular (chain : List JStr) : JStr :=
  ("Circular dependencies detected: ".data) ++ joinSep (" → ".data) chain

def msgDangling (jobId needed : JStr) : JStr :=
  ("Job \x22".data) ++ jobId ++ ("\x22 depends on non-existent job \x22".data) ++
    needed ++ ("\x22".data)

def msgInvalidRunner (jobId runner : JStr) : JStr :=
  ("Job \x22".data) ++ jobId ++ ("\x22 uses potentially invalid runner \x22".data) ++
    runner ++ ("\x22".data)

def msgNoRunner (jobId : JStr) : JStr :=
  ("Job \x22".data) ++ jobId ++ ("\x22 does not specify a runner (runs-on)".data)

def msgTodo : JStr :=
  ("Workflow contains TODO comments that should be addressed before using in production".data)

def msgSecrets : JStr :=
  ("Workflow may contain hardcoded credentials or secrets. Use GitHub Secrets instead.".data)

def msgEnvUndef (envVar : JStr) : JStr :=
  ("Environment variable \x22".data) ++ envVar ++
    ("\x22 is used but might not be defined at the workflow level".data)

def msgRepoVar (v : JStr) : JStr :=
  ("Using repository variable \x22".data) ++ v ++ ("\x22. Make sure it".data) ++
    ['\x27'] ++ ("s defined in your repository settings.".data)

def msgSecretUse (v : JStr) : JStr :=
  ("Using secret \x22".data) ++ v ++ ("\x22. Make sure it".data) ++
    ['\x27'] ++ ("s defined in your repository secrets.".data)

def commonRunners : List JStr :=
  [("ubuntu-latest".data), ("ubuntu-22.04".data), ("ubuntu-20.04".data), ("ubuntu-18.04".data),
   ("windows-latest".data), ("windows-2022".data), ("windows-2019".data),
   ("macos-latest".data), ("macos-12".data), ("macos-11".data),
   ("self-hosted".data)]

def isValidRunner (runner : JStr) : Bool :=
  commonRunners.contains runner || ("self-hosted".data).isPrefixOf runner

/-- Check 1 condition: `!workflow.jobs || Object.keys(workflow.jobs).length === 0`. -/
def noJobsCond (w : JsVal) : Bool :=
  match getProp w jobsKey with
  | none => true
  | some j => !truthy j || (objKeys j).isEmpty

def noJobsDiags (w : JsVal) : List WorkflowError :=
  if noJobsCond w then [⟨errType, msgNoJobs⟩] else []

/-- `Object.keys(workflow.jobs || \x7b\x7d)`. -/
def jobIdsOf (w : JsVal) : List JStr :=
  objKeys (jsOr (getProp w jobsKey) (.obj []))

/-- `workflow.jobs[jobId]`; the loops below only evaluate this when
`workflow.jobs` is truthy, where it coincides with indexing into
`workflow.jobs || \x7b\x7d`. -/
def jobAt (w : JsVal) (jobId : JStr) : JsVal :=
  (getProp (jsOr (getProp w jobsKey) (.obj [])) jobId).getD .null

/-- `job.needs || []` read as the list of job ids stored in the
dependency graph.  In the analyzed data model `needs` is an array of
strings; non-array truthy shapes and non-string entries are outside the
modelled universe. -/
def needsListOf (job : JsVal) : List JStr :=
  match getProp job needsKey with
  | some (.arr l) => l.filterMap (fun v => match v with | .str s => some s | _ => none)
  | _ => []

def dependencyGraphOf (w : JsVal) : List (JStr × List JStr) :=
  (jobIdsOf w).map (fun jobId => (jobId, needsListOf (jobAt w jobId)))

/-- Check 2: circular dependencies. -/
def circularDiags (w : JsVal) : List WorkflowError :=
  let c := findCircularDependencies (dependencyGraphOf w)
  if c.length > 0 then [⟨errType, msgCircular c⟩] else []

/-- Check 3 body for one job: `if (job.needs) job.needs.forEach(...)`. -/
def danglingDiagsFor (jobIds : List JStr) (jobId : JStr) (job : JsVal) : List WorkflowError :=
  match getProp job needsKey with
  | some (.arr l) =>
    l.filterMap (fun v => match v with
      | .str nd => if jobIds.contains nd then none else some ⟨errType, msgDangling jobId nd⟩
      | _ => none)
  | _ => []

def danglingDiags (w : JsVal) : List WorkflowError :=
  (jobIdsOf w).flatMap (fun jobId => danglingDiagsFor (jobIdsOf w) jobId (jobAt w jobId))

/-- Check 4 body for one job: warning for a truthy string runner outside
the allow-list, error when `runs-on` is absent or falsy. -/
def runnerDiagsFor (jobId : JStr) (job : JsVal) : List WorkflowError :=
  match getProp job runsOnKey with
  | some runner =>
    if truthy runner then
      match runner with
      | .str r => if !isValidRunner r then [⟨warnType, msgInvalidRunner jobId r⟩] else []
      | _ => []
    else [⟨errType, msgNoRunner jobId⟩]
  | none => [⟨errType, msgNoRunner jobId⟩]

def runnerDiags (w : JsVal) : List WorkflowError :=
  (jobIdsOf w).flatMap (fun jobId => runnerDiagsFor jobId (jobAt w jobId))

/-- `String.prototype.includes` on the character-list model. -/
def jsIncludes (needle : JStr) : JStr → Bool
  | [] => needle.isPrefixOf []
  | c :: rest => needle.isPrefixOf (c :: rest) || jsIncludes needle rest

/-- Check 5: the serialized document contains `TODO`. -/
def todoDiags (w : JsVal) : List WorkflowError :=
  if jsIncludes ("TODO".data) (jsonStringify w) then [⟨warnType, msgTodo⟩] else []

/-- Check 6: AWS-key prefix or long base64-like run in the serialized document. -/
def secretDiags (w : JsVal) : List WorkflowError :=
  if jsIncludes ("AKIA".data) (jsonStringify w) || hasB64Run (jsonStringify w) then
    [⟨errType, msgSecrets⟩]
  else []

/-- `container.env && container.env[envVar]` (JS truthiness of both). -/
def envHasTruthy (container : JsVal) (envVar : JStr) : Bool :=
  match getProp container envKey with
  | some e => truthy e && (match getProp e envVar with
      | some v => truthy v
      | none => false)
  | none => false

/-- Check 7 body for one extracted expression match. -/
def varDiagFor (w : JsVal) (m : JStr) : List WorkflowError :=
  let varName := exprVarName m
  if ("env.".data).isPrefixOf varName then
    let envVar := varName.drop 4
    if envHasTruthy w envVar then []
    else if (jobIdsOf w).any (fun jobId => envHasTruthy (jobAt w jobId) envVar) then []
    else [⟨warnType, msgEnvUndef envVar⟩]
  else if ("vars.".data).isPrefixOf varName then
    [⟨infoType, msgRepoVar (varName.drop 5)⟩]
  else if ("secrets.".data).isPrefixOf varName then
    [⟨infoType, msgSecretUse (varName.drop 8)⟩]
  else []

def varDiags (w : JsVal) : List WorkflowError :=
  (extractExprs (jsonStringify w)).flatMap (varDiagFor w)

def checkWorkflowForErrors (w : JsVal) : List WorkflowError :=
  noJobsDiags w ++ circularDiags w ++ danglingDiags w ++ runnerDiags w ++
    todoDiags w ++ secretDiags w ++ varDiags w

/-! ### Shape of the diagnostics each check can produce -/

theorem mem_noJobsDiags {w : JsVal} {d : WorkflowError} (h : d ∈ noJobsDiags w) :
    d = ⟨errType, msgNoJobs⟩ := by
  unfold noJobsDiags at h
  split at h
  · simpa using h
  · cases h

theorem mem_circularDiags {w : JsVal} {d : WorkflowError} (h : d ∈ circularDiags w) :
    ∃ c, d = ⟨errType, msgCircular c⟩ := by
  unfold circularDiags at h
  simp only [] at h
  split at h
  · exact ⟨_, by simpa using h⟩
  · cases h

theorem mem_danglingDiagsFor {ids : List JStr} {jobId : JStr} {job : JsVal} {d : WorkflowError}
    (h : d ∈ danglingDiagsFor ids jobId job) :
    ∃ b, d = ⟨errType, msgDangling jobId b⟩ := by
  unfold danglingDiagsFor at h
  split at h
  next l =>
    rcases List.mem_filterMap.mp h with ⟨v, _, hv⟩
    split at hv
    next =>
      split at hv
      · cases hv
      · exact ⟨_, by simpa using hv.symm⟩
    next => cases hv
  next => cases h

theorem mem_danglingDiags {w : JsVal} {d : WorkflowError} (h : d ∈ danglingDiags w) :
    ∃ a b, d = ⟨errType, msgDangling a b⟩ := by
  unfold danglingDiags at h
  rcases List.mem_flatMap.mp h with ⟨jobId, _, hd⟩
  obtain ⟨b, hb⟩ := mem_danglingDiagsFor hd
  exact ⟨jobId, b, hb⟩

theorem mem_runnerDiagsFor {jobId : JStr} {job : JsVal} {d : WorkflowError}
    (h : d ∈ runnerDiagsFor jobId job) :
    (∃ r, d = ⟨warnType, msgInvalidRunner jobId r⟩) ∨ d = ⟨errType, msgNoRunner jobId⟩ := by
  unfold runnerDiagsFor at h
  split at h
  next runner =>
    split at h
    · split at h
      next =>
        split at h
        · exact Or.inl ⟨_, by simpa using h⟩
        · cases h
      next => cases h
    · exact Or.inr (by simpa using h)
  next => exact Or.inr (by simpa using h)

theorem mem_runnerDiags {w : JsVal} {d : WorkflowError} (h : d ∈ runnerDiags w) :
    (∃ a r, d = ⟨warnType, msgInvalidRunner a r⟩) ∨ ∃ a, d = ⟨errType, msgNoRunner a⟩ := by
  unfold runnerDiags at h
  rcases List.mem_flatMap.mp h with ⟨jobId, _, hd⟩
  rcases mem_runnerDiagsFor hd with ⟨r, hr⟩ | hr
  · exact Or.inl ⟨jobId, r, hr⟩
  · exact Or.inr ⟨jobId, hr⟩

theorem mem_todoDiags {w : JsVal} {d : WorkflowError} (h : d ∈ todoDiags w) :
    d = ⟨warnType, msgTodo⟩ := by
  unfold todoDiags at h
  split at h
  · simpa using h
  · cases h

theorem mem_secretDiags {w : JsVal} {d : WorkflowError} (h : d ∈ secretDiags w) :
    d = ⟨errType, msgSecrets⟩ := by
  unfold secretDiags at h
  split at h
  · simpa using h
  · cases h

theorem mem_varDiagFor {w : JsVal} {m : JStr} {d : WorkflowError} (h : d ∈ varDiagFor w m) :
    (∃ v, d = ⟨warnType, msgEnvUndef v⟩) ∨ (∃ v, d = ⟨infoType, msgRepoVar v⟩) ∨
      ∃ v, d = ⟨infoType, msgSecretUse v⟩ := by
  unfold varDiagFor at h
  simp only [] at h
  split at h
  · split at h
    · cases h
    · split at h
      · cases h
      · exact Or.inl ⟨_, by simpa using h⟩
  · split at h
    · exact Or.inr (Or.inl ⟨_, by simpa using h⟩)
    · split at h
      · exact Or.inr (Or.inr ⟨_, by simpa using h⟩)
      · cases h

theorem mem_varDiags {w : JsVal} {d : WorkflowError} (h : d ∈ varDiags w) :
    (∃ v, d = ⟨warnType, msgEnvUndef v⟩) ∨ (∃ v, d = ⟨infoType, msgRepoVar v⟩) ∨
      ∃ v, d = ⟨infoType, msgSecretUse v⟩ := by
  unfold varDiags at h
  rcases List.mem_flatMap.mp h with ⟨m, _, hd⟩
  exact mem_varDiagFor hd

/-! ### Distinguishing the message families by their first character -/

theorem head_ne_of_ne {l1 l2 : JStr} (c d : Char) (h1 : l1.head? = some c)
    (h2 : l2.head? = some d) (h : c ≠ d) : l1 ≠ l2 := by
  intro he
  rw [he, h2] at h1
  cases h1
  exact h rfl

theorem msgCircular_head (c : List JStr) : (msgCircular c).head? = some 'C' := rfl

theorem msgDangling_head (a b : JStr) : (msgDangling a b).head? = some 'J' := rfl

theorem msgInvalidRunner_head (a r : JStr) : (msgInvalidRunner a r).head? = some 'J' := rfl

theorem msgNoRunner_head (a : JStr) : (msgNoRunner a).head? = some 'J' := rfl

theorem msgEnvUndef_head (v : JStr) : (msgEnvUndef v).head? = some 'E' := rfl

theorem msgRepoVar_head (v : JStr) : (msgRepoVar v).head? = some 'U' := rfl

theorem msgSecretUse_head (v : JStr) : (msgSecretUse v).head? = some 'U' := rfl

/-- C5: for every workflow value, the validator emits the
hardcoded-credentials error exactly when the JSON-serialized document
contains the substring `AKIA` or a run of 40 (hence also 50 or more)
consecutive characters of the class `[a-zA-Z0-9+/]`. -/
theorem checkWorkflow_secret_heuristic (w : JsVal) :
    (jsIncludes ("AKIA".data) (jsonStringify w) || hasB64Run (jsonStringify w)) = true ↔
      (⟨errType, msgSecrets⟩ : WorkflowError) ∈ checkWorkflowForErrors w := by
  constructor
  · intro hcond
    have hseg : secretDiags w = [⟨errType, msgSecrets⟩] := by
      unfold secretDiags
      rw [if_pos hcond]
    simp [checkWorkflowForErrors, hseg]
  · intro hmem
    unfold checkWorkflowForErrors at hmem
    simp only [List.mem_append] at hmem
    rcases hmem with ((((((h | h) | h) | h) | h) | h) | h)
    · have he := mem_noJobsDiags h
      simp only [WorkflowError.mk.injEq] at he
      exact absurd he.2 (by decide)
    · obtain ⟨c, hc⟩ := mem_circularDiags h
      simp only [WorkflowError.mk.injEq] at hc
      exact absurd hc.2 (head_ne_of_ne 'W' 'C' rfl (msgCircular_head c) (by decide))
    · obtain ⟨a, b, hab⟩ := mem_danglingDiags h
      simp only [WorkflowError.mk.injEq] at hab
      exact absurd hab.2 (head_ne_of_ne 'W' 'J' rfl (msgDangling_head a b) (by decide))
    · rcases mem_runnerDiags h with ⟨a, r, har⟩ | ⟨a, ha⟩
      · simp only [WorkflowError.mk.injEq] at har
        exact absurd har.1 (by decide)
      · simp only [WorkflowError.mk.injEq] at ha
        exact absurd ha.2 (head_ne_of_ne 'W' 'J' rfl (msgNoRunner_head a) (by decide))
    · have he := mem_todoDiags h
      exact absurd he (by decide)
    · unfold secretDiags at h
      split at h
      next hcond => exact hcond
      next => cases h
    · rcases mem_varDiags h with ⟨v, hv⟩ | ⟨v, hv⟩ | ⟨v, hv⟩
      · simp only [WorkflowError.mk.injEq] at hv
        exact absurd hv.1 (by decide)
      · simp only [WorkflowError.mk.injEq] at hv
        exact absurd hv.1 (by decide)
      · simp only [WorkflowError.mk.injEq] at hv
        exact absurd hv.1 (by decide)

theorem mem_check_of_mem_runner {w : JsVal} {d : WorkflowError}
    (h : d ∈ runnerDiags w) : d ∈ checkWorkflowForErrors w := by
  unfold checkWorkflowForErrors
  simp [List.mem_append, h]

/-- `runs-on` absent or falsy — the source's `else` branch of
`if (job[

'runs-on'])` collapses both into the missing-runner error. -/
def runsOnFalsy (job : JsVal) : Prop :=
  match getProp job runsOnKey with
  | none => True
  | some v => truthy v = false

/-- C3 (amended): for every job of a parsed workflow the validator emits
a warning naming the job when its `runs-on` value is a truthy (non-empty)
string outside the known-runner allow-list that does not start with
`self-hosted`; it emits an error naming the job when `runs-on` is absent
or falsy (the source checks truthiness, so an empty-string runner yields
the error, not the warning); and an array-valued `runs-on` produces no
runner diagnostic at all. -/
theorem checkWorkflow_runner_validation (w : JsVal) (jobId : JStr)
    (hid : jobId ∈ jobIdsOf w) :
    (∀ r, getProp (jobAt w jobId) runsOnKey = some (.str r) → r ≠ [] →
      isValidRunner r = false →
      (⟨warnType, msgInvalidRunner jobId r⟩ : WorkflowError) ∈ checkWorkflowForErrors w) ∧
    (runsOnFalsy (jobAt w jobId) →
      (⟨errType, msgNoRunner jobId⟩ : WorkflowError) ∈ checkWorkflowForErrors w) ∧
    (∀ l, getProp (jobAt w jobId) runsOnKey = some (.arr l) →
      runnerDiagsFor jobId (jobAt w jobId) = []) := by
  refine ⟨?_, ?_, ?_⟩
  · intro r hro hne hval
    apply mem_check_of_mem_runner
    unfold runnerDiags
    apply List.mem_flatMap.mpr
    refine ⟨jobId, hid, ?_⟩
    unfold runnerDiagsFor
    rw [hro]
    have ht : truthy (.str r) = true := by
      unfold truthy
      simpa using hne
    simp [ht, hval]
  · intro hfalsy
    apply mem_check_of_mem_runner
    unfold runnerDiags
    apply List.mem_flatMap.mpr
    refine ⟨jobId, hid, ?_⟩
    unfold runnerDiagsFor
    unfold runsOnFalsy at hfalsy
    split at hfalsy
    next heq =>
      rw [heq]
      exact List.mem_singleton_self _
    next v heq =>
      rw [heq]
      simp [hfalsy]
  · intro l hro
    unfold runnerDiagsFor
    rw [hro]
    rfl

def runnerCexWf : JsVal :=
  .obj [(jobsKey, .obj [(("a".data), .obj [(runsOnKey, .str [])])])]

/-- C3 counterexample: job `a` has `runs-on` equal to the empty string — a
string that is not in the allow-list and does not start with
`self-hosted` — yet the validator emits no invalid-runner warning naming
`a` (it emits the missing-runner error instead), contradicting the claim
as stated. -/
theorem checkWorkflow_runner_validation_cex :
    getProp (jobAt runnerCexWf ("a".data)) runsOnKey = some (.str []) ∧
      isValidRunner [] = false ∧
      ("self-hosted".data).isPrefixOf ([] : JStr) = false ∧
      (⟨warnType, msgInvalidRunner ("a".data) []⟩ : WorkflowError) ∉
        checkWorkflowForErrors runnerCexWf ∧
      (⟨errType, msgNoRunner ("a".data)⟩ : WorkflowError) ∈
        checkWorkflowForErrors runnerCexWf := by
  refine ⟨rfl, rfl, rfl, ?_, ?_⟩
  · decide
  · decide

def runnerWitWf : JsVal :=
  .obj [(jobsKey, .obj [
    (("a".data), .obj [(runsOnKey, .str ("my-runner".data))]),
    (("b".data), .obj []),
    (("c".data), .obj [(runsOnKey, .arr [])])])]

theorem checkWorkflow_runner_validation_witness :
    (("a".data) ∈ jobIdsOf runnerWitWf ∧
      (⟨warnType, msgInvalidRunner ("a".data) ("my-runner".data)⟩ : WorkflowError) ∈
        checkWorkflowForErrors runnerWitWf) ∧
    ((⟨errType, msgNoRunner ("b".data)⟩ : WorkflowError) ∈
        checkWorkflowForErrors runnerWitWf) ∧
    (runnerDiagsFor ("c".data) (jobAt runnerWitWf ("c".data)) = []) :=
  ⟨⟨by decide,
    (checkWorkflow_runner_validation runnerWitWf ("a".data) (by decide)).1
      ("my-runner".data) rfl (by decide) (by decide)⟩,
   (checkWorkflow_runner_validation runnerWitWf ("b".data) (by decide)).2.1 (by trivial),
   (checkWorkflow_runner_validation runnerWitWf ("c".data) (by decide)).2.2 [] rfl⟩

theorem msgEnvUndef_inj {X Y : JStr} (h : msgEnvUndef X = msgEnvUndef Y) : X = Y := by
  unfold msgEnvUndef at h
  rw [List.append_assoc, List.append_assoc] at h
  have h1 := List.append_cancel_left h
  exact List.append_cancel_right h1

theorem isPrefixOf_append_self : ∀ (p l : JStr), p.isPrefixOf (p ++ l) = true := by
  intro p
  induction p with
  | nil => intro l; cases l <;> rfl
  | cons a t ih =>
    intro l
    simp only [List.cons_append, List.isPrefixOf_cons₂_self]
    exact ih l

/-- The definedness condition the source actually tests: a truthy value
under the name at workflow level, or in some job's `env`. -/
def envDefinedTruthy (w : JsVal) (envVar : JStr) : Bool :=
  envHasTruthy w envVar || (jobIdsOf w).any (fun jobId => envHasTruthy (jobAt w jobId) envVar)

theorem mem_check_of_mem_var {w : JsVal} {d : WorkflowError}
    (h : d ∈ varDiags w) : d ∈ checkWorkflowForErrors w := by
  unfold checkWorkflowForErrors
  simp [List.mem_append, h]

/-- C4 (amended): for every expression of the form `env.X` inside a
`$\x7b\x7b ... \x7d\x7d` match of the serialized workflow document, the
validator emits a warning naming `X` if and only if `X` is not defined
*with a truthy value* (JS truthiness — a defined but empty-string, `0`,
`false` or `null` value counts as undefined) in the workflow-level `env`
mapping nor in any job's `env` mapping. -/
theorem checkWorkflow_env_undefined (w : JsVal) (X : JStr)
    (hmatch : ∃ m ∈ extractExprs (jsonStringify w),
      exprVarName m = ("env.".data) ++ X) :
    ((⟨warnType, msgEnvUndef X⟩ : WorkflowError) ∈ checkWorkflowForErrors w) ↔
      envDefinedTruthy w X = false := by
  constructor
  · intro hmem
    unfold checkWorkflowForErrors at hmem
    simp only [List.mem_append] at hmem
    rcases hmem with ((((((h | h) | h) | h) | h) | h) | h)
    · have he := mem_noJobsDiags h
      simp only [WorkflowError.mk.injEq] at he
      exact absurd he.1 (by decide)
    · obtain ⟨c, hc⟩ := mem_circularDiags h
      simp only [WorkflowError.mk.injEq] at hc
      exact absurd hc.1 (by decide)
    · obtain ⟨a, b, hab⟩ := mem_danglingDiags h
      simp only [WorkflowError.mk.injEq] at hab
      exact absurd hab.1 (by decide)
    · rcases mem_runnerDiags h with ⟨a, r, har⟩ | ⟨a, ha⟩
      · simp only [WorkflowError.mk.injEq] at har
        exact absurd har.2 (head_ne_of_ne 'E' 'J' (msgEnvUndef_head X)
          (msgInvalidRunner_head a r) (by decide))
      · simp only [WorkflowError.mk.injEq] at ha
        exact absurd ha.1 (by decide)
    · have he := mem_todoDiags h
      simp only [WorkflowError.mk.injEq] at he
      exact absurd he.2 (head_ne_of_ne 'E' 'W' (msgEnvUndef_head X) rfl (by decide))
    · have he := mem_secretDiags h
      simp only [WorkflowError.mk.injEq] at he
      exact absurd he.1 (by decide)
    · unfold varDiags at h
      rcases List.mem_flatMap.mp h with ⟨m, _, hd⟩
      unfold varDiagFor at hd
      simp only [] at hd
      split at hd
      · split at hd
        next => cases hd
        next hW =>
          split at hd
          next => cases hd
          next hJ =>
            simp only [List.mem_singleton, WorkflowError.mk.injEq] at hd
            have hX := msgEnvUndef_inj hd.2
            subst hX
            unfold envDefinedTruthy
            rw [Bool.or_eq_false_iff]
            constructor
            · exact Bool.eq_false_iff.mpr hW
            · exact Bool.eq_false_iff.mpr hJ
      · split at hd
        next =>
          simp only [List.mem_singleton, WorkflowError.mk.injEq] at hd
          exact absurd hd.1 (by decide)
        next =>
          split at hd
          next =>
            simp only [List.mem_singleton, WorkflowError.mk.injEq] at hd
            exact absurd hd.1 (by decide)
          next => cases hd
  · intro hundef
    obtain ⟨m, hm, hname⟩ := hmatch
    apply mem_check_of_mem_var
    unfold varDiags
    apply List.mem_flatMap.mpr
    refine ⟨m, hm, ?_⟩
    unfold varDiagFor
    simp only []
    rw [hname]
    unfold envDefinedTruthy at hundef
    rw [Bool.or_eq_false_iff] at hundef
    have hpre : (("env.".data).isPrefixOf (("env.".data) ++ X)) = true :=
      isPrefixOf_append_self _ _
    rw [if_pos hpre]
    have hdrop : (("env.".data) ++ X).drop 4 = X := List.drop_left ("env.".data) X
    rw [hdrop, if_neg (by simp [hundef.1]), if_neg (by simp [hundef.2])]
    exact List.mem_singleton_self _

def envCexWf : JsVal :=
  .obj [(envKey, .obj [(("FOO".data), .str [])]),
        (jobsKey, .obj [(("a".data), .obj [
          (runsOnKey, .str ("ubuntu-latest".data)),
          (("steps".data), .arr [.obj [(("run".data),
            .str ("echo $\x7b\x7b env.FOO \x7d\x7d".data))]])])])]

/-- C4 counterexample: `FOO` *is* defined in the workflow-level `env`
mapping (with the empty-string value) and the serialized document
contains the expression `$\x7b\x7b env.FOO \x7d\x7d`, yet the validator
emits the undefined-variable warning naming `FOO`: the source tests JS
truthiness of the stored value, not definedness. -/
theorem checkWorkflow_env_undefined_cex :
    getProp ((getProp envCexWf envKey).getD .null) ("FOO".data) = some (.str []) ∧
      (("$\x7b\x7b env.FOO \x7d\x7d".data) ∈ extractExprs (jsonStringify envCexWf) ∧
        exprVarName ("$\x7b\x7b env.FOO \x7d\x7d".data) = ("env.FOO".data)) ∧
      (⟨warnType, msgEnvUndef ("FOO".data)⟩ : WorkflowError) ∈
        checkWorkflowForErrors envCexWf := by
  refine ⟨rfl, ⟨?_, rfl⟩, ?_⟩
  · decide
  · decide

def envWitWf : JsVal :=
  .obj [(jobsKey, .obj [(("a".data), .obj [
    (runsOnKey, .str ("ubuntu-latest".data)),
    (("steps".data), .arr [.obj [(("run".data),
      .str ("echo $\x7b\x7b env.BAR \x7d\x7d".data))]])])])]

theorem checkWorkflow_env_undefined_witness :
    (∃ m ∈ extractExprs (jsonStringify envWitWf),
        exprVarName m = ("env.".data) ++ ("BAR".data)) ∧
      (⟨warnType, msgEnvUndef ("BAR".data)⟩ : WorkflowError) ∈
        checkWorkflowForErrors envWitWf :=
  have hm : ∃ m ∈ extractExprs (jsonStringify envWitWf),
      exprVarName m = ("env.".data) ++ ("BAR".data) :=
    ⟨("$\x7b\x7b env.BAR \x7d\x7d".data), by decide, by decide⟩
  ⟨hm, (checkWorkflow_env_undefined envWitWf ("BAR".data) hm).mpr (by decide)⟩

/-! ## The WorkflowGraph caller's validation effect (WorkflowGraph.tsx)

The component's `useEffect` first short-circuits into the non-error
«empty workflow» state — for a missing/falsy document, an empty object,
or missing/empty `jobs` — and only otherwise invokes
`checkWorkflowForErrors` and stores its diagnostics. -/

inductive GraphCheckResult where
  | empty
  | checked (errors : List WorkflowError)
deriving DecidableEq

def workflowGraphValidation : Option JsVal → GraphCheckResult
  | none => .empty
  | some w =>
    if !truthy w then .empty
    else if (objKeys w).isEmpty then .empty
    else if noJobsCond w then .empty
    else .checked (checkWorkflowForErrors w)

/-- The inputs claim C10 ranges over: `jobs` absent, `null`, or an empty
mapping. -/
def emptyJobsInput (w : JsVal) : Prop :=
  getProp w jobsKey = none ∨ getProp w jobsKey = some .null ∨
    getProp w jobsKey = some (.obj [])

/-- C10: for every input whose `jobs` field is absent, null, or an empty
mapping, `checkWorkflowForErrors` returns a list whose first element is
the error «Workflow has no jobs defined»; the non-error empty-workflow
treatment lives only in the caller, whose guard resolves these inputs to
the `empty` state without surfacing the validator's error. -/
theorem checkWorkflow_empty_jobs (w : JsVal) (h : emptyJobsInput w) :
    (checkWorkflowForErrors w).head? = some ⟨errType, msgNoJobs⟩ ∧
      workflowGraphValidation (some w) = .empty := by
  have hcond : noJobsCond w = true := by
    unfold noJobsCond
    rcases h with h | h | h <;> rw [h] <;> rfl
  constructor
  · unfold checkWorkflowForErrors noJobsDiags
    rw [if_pos hcond]
    rfl
  · unfold workflowGraphValidation
    simp only []
    split_ifs <;> rfl

theorem checkWorkflow_empty_jobs_witness :
    emptyJobsInput (.obj [(jobsKey, .obj [])]) ∧
      ((checkWorkflowForErrors (.obj [(jobsKey, .obj [])])).head? =
          some ⟨errType, msgNoJobs⟩ ∧
        workflowGraphValidation (some (.obj [(jobsKey, .obj [])])) = .empty) :=
  have h : emptyJobsInput (.obj [(jobsKey, .obj [])]) := Or.inr (Or.inr rfl)
  ⟨h, checkWorkflow_empty_jobs (.obj [(jobsKey, .obj [])]) h⟩

/-! ## The text preprocessor (`preprocessYaml`, workflowParser.ts)

A line-oriented pass with three pieces of state (inside a step block, the
step's indentation, inside a multi-line `run: |` block), followed by one
global regex substitution that reflows a broken Slack-notification
step. -/

/-- `String.prototype.split('\n')`. -/
def splitNl : JStr → List JStr
  | [] => [[]]
  | c :: r =>
    if c = '\n' then [] :: splitNl r
    else
      match splitNl r with
      | h :: t => (c :: h) :: t
      | [] => [[c]]

/-- `Array.prototype.join('\n')`. -/
def joinNl : List JStr → JStr := joinSep ['\n']

theorem splitNl_ne_nil : ∀ s : JStr, splitNl s ≠ [] := by
  intro s
  cases s with
  | nil => exact fun h => by cases h
  | cons c r =>
    unfold splitNl
    split_ifs
    · exact fun h => by cases h
    · split
      · exact fun h => by cases h
      · exact fun h => by cases h

theorem joinNl_splitNl : ∀ s : JStr, joinNl (splitNl s) = s := by
  intro s
  induction s with
  | nil => rfl
  | cons c r ih =>
    unfold splitNl
    split_ifs with hc
    · subst hc
      cases hsp : splitNl r with
      | nil => exact absurd hsp (splitNl_ne_nil r)
      | cons h t =>
        unfold joinNl joinSep
        rw [← hsp]
        simp only [List.nil_append, List.cons_append]
        show '\n' :: joinNl (splitNl r) = '\n' :: r
        rw [ih]
    · cases hsp : splitNl r with
      | nil => exact absurd hsp (splitNl_ne_nil r)
      | cons h t =>
        rw [hsp] at ih
        cases t with
        | nil =>
          show joinNl [c :: h] = c :: r
          show c :: h = c :: r
          have : joinNl [h] = r := ih
          have hh : h = r := this
          rw [hh]
        | cons h2 t2 =>
          show joinNl ((c :: h) :: h2 :: t2) = c :: r
          show (c :: h) ++ ['\n'] ++ joinSep ['\n'] (h2 :: t2) = c :: r
          have : h ++ ['\n'] ++ joinSep ['\n'] (h2 :: t2) = r := ih
          simp only [List.cons_append]
          rw [List.append_assoc] at this ⊢
          rw [this]

structure PreState where
  inStep : Bool
  stepInd : Nat
  inML : Bool

/-- One iteration of the preprocessing loop: the emitted line and the new
state.  `next?` is the lookahead `lines[i+1]` (`none` on the last line,
matching `i < lines.length - 1`). -/
def preprocessLine (line : JStr) (next? : Option JStr) (st : PreState) : JStr × PreState :=
  let trimmed := trimStartJs line
  let st :=
    if ("- name:".data).isPrefixOf trimmed then
      (⟨true, line.length - trimmed.length, false⟩ : PreState)
    else st
  if st.inStep && ("run: |".data).isPrefixOf trimmed then
    (line, ⟨st.inStep, st.stepInd, true⟩)
  else
    let mlCont := st.inML && decide (line.length - trimmed.length > st.stepInd) &&
      !trimmed.isEmpty
    if mlCont then (line, st)
    else
      let st : PreState := if st.inML then ⟨st.inStep, st.stepInd, false⟩ else st
      if st.inStep &&
          (jsIncludes ("curl -X POST".data) line || jsIncludes ("--data".data) line ||
            jsIncludes ("Content-type: application/json".data) line) &&
          (jsIncludes ("--data".data) line && jsIncludes ("\\\x22text\\\x22".data) line) &&
          !((List.replicate (st.stepInd + 2) ' ').isPrefixOf line) then
        (List.replicate (st.stepInd + 2) ' ' ++ trimmed, st)
      else if st.inStep &&
          (("if:".data).isPrefixOf trimmed || ("run:".data).isPrefixOf trimmed) &&
          decide (line.length - trimmed.length ≠ st.stepInd + 2) then
        (List.replicate (st.stepInd + 2) ' ' ++ trimmed, st)
      else
        let st : PreState :=
          if st.inStep && (trimJs line).isEmpty &&
              (match next? with
               | some nl =>
                 let nt := trimStartJs nl
                 !(("if:".data).isPrefixOf nt || ("run:".data).isPrefixOf nt ||
                   ("with:".data).isPrefixOf nt || ("env:".data).isPrefixOf nt)
               | none => false) then
            (⟨false, st.stepInd, st.inML⟩ : PreState)
          else st
        (line, st)

def preprocessLines : List JStr → PreState → List JStr
  | [], _ => []
  | l :: rest, st =>
    (preprocessLine l rest.head? st).1 ::
      preprocessLines rest (preprocessLine l rest.head? st).2

/-! ### The final Slack-reflow substitution -/

def slackLit1 : JStr := ("- name: Notify Slack".data)

def slackLit2 : JStr := ("if: success()".data)

/-- The third literal of the reflow regex: the `run:` line up to the
escaped-quote JSON payload opener. -/
def slackLit3 : JStr :=
  ("run: curl -X POST -H ".data) ++ ['\x27'] ++ ("Content-type: application/json".data) ++
    ['\x27'] ++ (" --data ".data) ++ ['\x27'] ++ ("\x7b\\\x22text\\\x22:".data)

/-- One attempted match of the reflow regex at the start of `s`: the
three literals separated by `\s+`.  The whitespace runs are maximal, as
both following literals start with a non-whitespace character. -/
def slackMatchAt (s : JStr) : Option (JStr × JStr) :=
  if slackLit1.isPrefixOf s then
    let r1 := s.drop slackLit1.length
    let ws1 := r1.takeWhile isWs
    if ws1.isEmpty then none
    else
      let r2 := r1.dropWhile isWs
      if slackLit2.isPrefixOf r2 then
        let r3 := r2.drop slackLit2.length
        let ws2 := r3.takeWhile isWs
        if ws2.isEmpty then none
        else
          let r4 := r3.dropWhile isWs
          if slackLit3.isPrefixOf r4 then
            some (slackLit1 ++ ws1 ++ slackLit2 ++ ws2 ++ slackLit3,
              r4.drop slackLit3.length)
          else none
      else none
  else none

/-- `String.prototype.indexOf` of a character; the callback only applies
it to lines that start with `-`, so the not-found value is irrelevant. -/
def charIndexOf (c : Char) : JStr → Nat
  | [] => 0
  | a :: t => if a = c then 0 else charIndexOf c t + 1

/-- The replacement callback: reflows a three-or-more-line match into the
step line plus consistently indented `if:` and (unescaped) `run:` lines;
shorter matches are returned unchanged. -/
def slackCallback (m : JStr) : JStr :=
  let lines := splitNl m
  if 3 ≤ lines.length then
    let properIndent := List.replicate (charIndexOf '-' (lines.headD []) + 2) ' '
    joinNl [lines.headD [],
      properIndent ++ slackLit2,
      properIndent ++ ("run: curl -X POST -H ".data) ++ ['\x27'] ++
        ("Content-type: application/json".data) ++ ['\x27'] ++ (" --data ".data) ++
        ['\x27'] ++ ("\x7b\x22text\x22:".data)]
  else m

/-- Whether the reflow regex matches anywhere in `s`. -/
def hasSlackMatch : JStr → Bool
  | [] => false
  | c :: rest => (slackMatchAt (c :: rest)).isSome || hasSlackMatch rest

/-- The global replacement, with fuel making the recursion structural;
every step consumes at least one character, so `s.length` fuel is never
exhausted. -/
def slackReplaceAux : Nat → JStr → JStr
  | 0, s => s
  | fuel+1, s =>
    match s with
    | [] => []
    | c :: rest =>
      match slackMatchAt (c :: rest) with
      | some (m, suffix) => slackCallback m ++ slackReplaceAux fuel suffix
      | none => c :: slackReplaceAux fuel rest

def slackReplaceAll (s : JStr) : JStr := slackReplaceAux s.length s

def preprocessYaml (text : JStr) : JStr :=
  slackReplaceAll (joinNl (preprocessLines (splitNl text) ⟨false, 0, false⟩))

theorem slackReplaceAux_id_of_no_match :
    ∀ (f : Nat) (s : JStr), hasSlackMatch s = false → slackReplaceAux f s = s := by
  intro f
  induction f with
  | zero => intro s _; rfl
  | succ f ih =>
    intro s h
    cases s with
    | nil => rfl
    | cons c rest =>
      unfold hasSlackMatch at h
      rw [Bool.or_eq_false_iff] at h
      have hm : slackMatchAt (c :: rest) = none := by
        rcases hopt : slackMatchAt (c :: rest) with _ | p
        · rfl
        · rw [hopt] at h
          cases h.1
      simp only [slackReplaceAux, hm]
      rw [ih rest h.2]

theorem preprocessLines_id :
    ∀ (lines : List JStr),
      (∀ l ∈ lines, ("- name:".data).isPrefixOf (trimStartJs l) = false) →
      preprocessLines lines ⟨false, 0, false⟩ = lines := by
  intro lines
  induction lines with
  | nil => intro _; rfl
  | cons l rest ih =>
    intro h
    have hl : ("- name:".data).isPrefixOf (trimStartJs l) = false :=
      h l (List.mem_cons_self l rest)
    have hstep : preprocessLine l rest.head? ⟨false, 0, false⟩ = (l, ⟨false, 0, false⟩) := by
      unfold preprocessLine
      simp [hl]
    unfold preprocessLines
    rw [hstep]
    exact congrArg (l :: ·) (ih (fun x hx => h x (List.mem_cons_of_mem l hx)))

/-- C6 (amended): the preprocessor is the identity on input text that
contains no step block (no line whose left-trimmed form begins with
`- name:`) *and* in which the final Slack-reflow regex finds no match;
the line pass leaves every line unchanged, and with no reflow match the
final substitution is the identity as well. -/
theorem preprocessYaml_id (text : JStr)
    (h1 : ∀ l ∈ splitNl text, ("- name:".data).isPrefixOf (trimStartJs l) = false)
    (h2 : hasSlackMatch text = false) :
    preprocessYaml text = text := by
  unfold preprocessYaml slackReplaceAll
  rw [preprocessLines_id (splitNl text) h1, joinNl_splitNl]
  exact slackReplaceAux_id_of_no_match _ _ h2

def slackCexText : JStr :=
  ("foo - name: Notify Slack\nif: success()\nrun: curl -X POST -H ".data) ++ ['\x27'] ++
  ("Content-type: application/json".data) ++ ['\x27'] ++ (" --data ".data) ++ ['\x27'] ++
  ("\x7b\\\x22text\\\x22:".data)

/-- C6 counterexample: this text contains no step block at all — no line
whose left-trimmed form begins with `- name:` (the marker sits mid-line
after `foo `) — yet `preprocessYaml` changes it: the final Slack-reflow
regex matches across the three lines and re-indents the `if:`/`run:`
lines and unescapes the payload quotes. -/
theorem preprocessYaml_id_cex :
    (∀ l ∈ splitNl slackCexText,
        ("- name:".data).isPrefixOf (trimStartJs l) = false) ∧
      preprocessYaml slackCexText ≠ slackCexText := by
  constructor
  · decide
  · decide

theorem preprocessYaml_id_witness :
    (∀ l ∈ splitNl ("hello\nworld".data),
        ("- name:".data).isPrefixOf (trimStartJs l) = false) ∧
      hasSlackMatch ("hello\nworld".data) = false ∧
      preprocessYaml ("hello\nworld".data) = ("hello\nworld".data) :=
  ⟨by decide, by decide, preprocessYaml_id ("hello\nworld".data) (by decide) (by decide)⟩

/-! ## The workflow loader (`parseWorkflow`, workflowParser.ts)

`yaml.load` is the external js-yaml library, not code of this repository,
so the loader is a parameter: a function from the preprocessed text to
either the decoded value or the thrown YAML error.  `parseWorkflow`
preprocesses, calls the loader, and on failure logs and rethrows the very
same error — it performs no check of its own (in particular no
is-a-mapping check). -/

def parseWorkflow (load : JStr → Except JStr JsVal) (yamlContent : JStr) :
    Except JStr JsVal :=
  match load (preprocessYaml yamlContent) with
  | .ok v => .ok v
  | .error e => .error e

/-- C7 (amended): `parseWorkflow` is exactly the underlying YAML load of
the preprocessed text — it fails with precisely the loader's error when
the text is not well-formed YAML, and returns the decoded value unchanged
whenever the load succeeds, *including* when that value is not a mapping:
non-mapping decodes are not rejected here. -/
theorem parseWorkflow_is_load (load : JStr → Except JStr JsVal) (yamlContent : JStr) :
    parseWorkflow load yamlContent = load (preprocessYaml yamlContent) := by
  unfold parseWorkflow
  cases load (preprocessYaml yamlContent) <;> rfl

/-- C7 counterexample: with a loader behaving as js-yaml does on the
input `hello` — well-formed YAML decoding to the *string scalar*
`hello`, not a mapping — `parseWorkflow` returns the scalar without
failing, contradicting the claim that inputs not decoding to a mapping
fail with a ParseError. -/
theorem parseWorkflow_is_load_cex :
    parseWorkflow (fun _ => .ok (.str ("hello".data))) ("hello".data) =
      .ok (.str ("hello".data)) := rfl

/-! ## The step-variable extractor (`analyzeStepVariables`, WorkflowGraph.tsx)

The heterogeneous records the source pushes are modelled as one inductive
per record shape (`type: 'env' | 'expression' | 'github_env' | 'export'`
becomes the constructor). -/

inductive StepVar where
  | envVar (name : JStr) (value : JsVal)
  | exprVar (expression : JStr) (subtype : JStr) (predictedValue : JStr)
  | githubEnvVar (name : JStr) (value : JStr) (note : JStr) (predictedValue : Option JStr)
  | exportVar (name : JStr) (value : JStr) (note : JStr)

/-- Discriminator for `type === 'github_env'`. -/
def StepVar.isGithubEnv : StepVar → Bool
  | .githubEnvVar _ _ _ _ => true
  | _ => false

/-- Step-level `env` entries (`Object.entries(step.env)` when truthy;
entries of non-object truthy values are outside the modelled universe). -/
def envVarsOf (step : JsVal) : List StepVar :=
  match getProp step envKey with
  | some e =>
    if truthy e then
      match e with
      | .obj fields => fields.map (fun kv => StepVar.envVar kv.1 kv.2)
      | _ => []
    else []
  | none => []

/-- One expression variable, classified by prefix with predicted example
values.  `github.workflow` falls back to `workflow.name || 'Workflow'`
(name values are strings in the modelled universe). -/
def mkExprVar (w : JsVal) (m : JStr) : StepVar :=
  let expression := exprVarName m
  if ("env.".data).isPrefixOf expression then
    .exprVar expression ("environment".data)
      (("Value of ".data) ++ expression.drop 4 ++ (" environment variable".data))
  else if ("secrets.".data).isPrefixOf expression then
    .exprVar expression ("secret".data) ("****** (secret)".data)
  else if ("github.".data).isPrefixOf expression then
    let contextVar := expression.drop 7
    let pv :=
      if contextVar = ("sha".data) then ("8f142c22a0c1e5a5f35b232974cabf45d66f7f1a".data)
      else if contextVar = ("ref".data) then ("refs/heads/main".data)
      else if contextVar = ("event_name".data) then ("push".data)
      else if contextVar = ("workflow".data) then
        match getProp w ("name".data) with
        | some (.str s) => if s.isEmpty then ("Workflow".data) else s
        | _ => ("Workflow".data)
      else if contextVar = ("run_number".data) then ("42".data)
      else ("GitHub context: ".data) ++ contextVar
    .exprVar expression ("github context".data) pv
  else .exprVar expression ("unknown".data) ("Unknown".data)

/-! ### The `([A-Z_]+)=(.+?)>>\s*\$GITHUB_ENV` scan -/

/-- Attempt `>>\s*\$GITHUB_ENV` at the start of `s`.  The `\s*` is
forced maximal, since `$` is not whitespace.  Returns the terminator's
characters and the suffix after it. -/
def ghTermAt (s : JStr) : Option (JStr × JStr) :=
  match s with
  | '>' :: '>' :: r =>
    let ws := r.takeWhile isWs
    let r2 := r.dropWhile isWs
    if ("$GITHUB_ENV".data).isPrefixOf r2 then
      some ('>' :: '>' :: (ws ++ ("$GITHUB_ENV".data)), r2.drop 11)
    else none
  | _ => none

/-- The lazy `(.+?)` of the GITHUB_ENV regex: the shortest non-empty
value after which the terminator matches; `.` cannot cross a newline. -/
def ghValueScan : JStr → JStr → Option (JStr × JStr × JStr)
  | _, [] => none
  | acc, c :: r =>
    if acc.isEmpty then
      if c = '\n' then none else ghValueScan [c] r
    else
      match ghTermAt (c :: r) with
      | some (term, suffix) => some (acc, term, suffix)
      | none => if c = '\n' then none else ghValueScan (acc ++ [c]) r

/-- Attempt the full pattern at the start of `s`: a maximal non-empty
`[A-Z_]` run (a shorter run cannot help, as it leaves an upper-class
character where `=` is required), `=`, then the lazy value scan.
Returns the name and the match's text after its first `=` (value ++
terminator — the part the source feeds into split/replace/trim; the
name contains no `=`, so `parts[0]` is the name and `parts.length >= 2`
always holds), and the suffix. -/
def ghMatchAt (s : JStr) : Option (JStr × JStr × JStr) :=
  let name := s.takeWhile isUpperU
  if name.isEmpty then none
  else
    match s.drop name.length with
    | '=' :: rest =>
      match ghValueScan [] rest with
      | some (value, term, suffix) => some (name, value ++ term, suffix)
      | none => none
    | _ => none

/-- The global scan.  Each step consumes at least one character, so
`s.length` fuel is never exhausted; the fuel only makes the recursion
structural. -/
def ghMatches : Nat → JStr → List (JStr × JStr)
  | 0, _ => []
  | fuel+1, s =>
    match s with
    | [] => []
    | c :: rest =>
      match ghMatchAt (c :: rest) with
      | some (name, tail, suffix) => (name, tail) :: ghMatches fuel suffix
      | none => ghMatches fuel rest

/-- `.replace(/>>\s*\$GITHUB_ENV/, '')`: delete the first occurrence. -/
def removeFirstGhTerm : JStr → JStr
  | [] => []
  | c :: r =>
    match ghTermAt (c :: r) with
    | some (_, suffix) => suffix
    | none => c :: removeFirstGhTerm r

/-- `String.prototype.replace` with a literal pattern: replace the first
occurrence. -/
def replaceFirstLit (pat repl : JStr) : JStr → JStr
  | [] => []
  | c :: r =>
    if pat.isPrefixOf (c :: r) then repl ++ (c :: r).drop pat.length
    else c :: replaceFirstLit pat repl r

/-- Attempt `\$\x7bGITHUB_SHA::(\d+)\x7d` at the start of `s`. -/
def shaTruncAt (s : JStr) : Option (JStr × JStr) :=
  if ("$\x7bGITHUB_SHA::".data).isPrefixOf s then
    let r := s.drop 14
    let ds := r.takeWhile Char.isDigit
    if ds.isEmpty then none
    else
      match r.drop ds.length with
      | '\x7d' :: suffix => some (ds, suffix)
      | _ => none
  else none

/-- `value.match(/\$\x7bGITHUB_SHA::(\d+)\x7d/)`: the digits group of
the first occurrence. -/
def findShaDigits : JStr → Option JStr
  | [] => none
  | c :: r =>
    match shaTruncAt (c :: r) with
    | some (ds, _) => some ds
    | none => findShaDigits r

/-- `value.replace(/\$\x7bGITHUB_SHA::(\d+)\x7d/, '8f142c2')`. -/
def replaceShaTrunc : JStr → JStr
  | [] => []
  | c :: r =>
    match shaTruncAt (c :: r) with
    | some (_, suffix) => ("8f142c2".data) ++ suffix
    | none => c :: replaceShaTrunc r

/-- `parseInt` on the `\d+` capture. -/
def digitsToNat (ds : JStr) : Nat :=
  ds.foldl (fun acc c => acc * 10 + (c.toNat - 48)) 0

/-- Attempt `\$\x7b\x7b\s*env\.([^\x7d]+)\s*\x7d\x7d` at the start of
`s`: the opener, a maximal whitespace run (forced, `env.` starts with a
non-space), the literal `env.`, then — exactly as in `exprMatchAt` — a
non-empty non-brace run followed directly by the two closing braces.
Returns the suffix after the match. -/
def envInterpAt (s : JStr) : Option JStr :=
  match s with
  | '$' :: '\x7b' :: '\x7b' :: r =>
    let r1 := r.dropWhile isWs
    if ("env.".data).isPrefixOf r1 then
      let r2 := r1.drop 4
      if (r2.takeWhile (fun c => c != '\x7d')).isEmpty then none
      else
        match r2.dropWhile (fun c => c != '\x7d') with
        | '\x7d' :: '\x7d' :: suffix => some suffix
        | _ => none
    else none
  | _ => none

/-- `.replace(/\$\x7b\x7b\s*env\.([^\x7d]+)\s*\x7d\x7d/, 'myapp')`. -/
def replaceEnvInterp : JStr → JStr
  | [] => []
  | c :: r =>
    match envInterpAt (c :: r) with
    | some suffix => ("myapp".data) ++ suffix
    | none => c :: replaceEnvInterp r

/-- Build one `github_env` variable from a match: the stored value is
the match tail with the first terminator occurrence removed, trimmed;
the predicted value substitutes the fixed example SHA / run number /
ref and one `env.` interpolation, in source order, with the
SHA-truncation pattern taking its own branch and note. -/
def mkGithubEnvVar (name tail : JStr) : StepVar :=
  let value := trimJs (removeFirstGhTerm tail)
  if jsIncludes ("$\x7bGITHUB_SHA::".data) value then
    let digits :=
      match findShaDigits value with
      | some ds => digitsToNat ds
      | none => 7
    .githubEnvVar name value
      (("Sets a variable with truncated SHA (".data) ++ (toString digits).data ++
        (" characters)".data))
      (some (replaceEnvInterp (replaceFirstLit ("$\x7bGITHUB_RUN_NUMBER\x7d".data)
        ("42".data) (replaceShaTrunc value))))
  else if jsIncludes ("GITHUB_".data) value then
    .githubEnvVar name value
      ("This variable will be available in subsequent steps".data)
      (some (replaceEnvInterp
        (replaceFirstLit ("$\x7bGITHUB_REF\x7d".data) ("refs/heads/main".data)
          (replaceFirstLit ("$\x7bGITHUB_RUN_NUMBER\x7d".data) ("42".data)
            (replaceFirstLit ("$\x7bGITHUB_SHA\x7d".data)
              ("8f142c22a0c1e5a5f35b232974cabf45d66f7f1a".data) value)))))
  else
    .githubEnvVar name value
      ("This variable will be available in subsequent steps".data) none

/-! ### The `export\s+([A-Z_]+)=(.+?)($|\n)` scan -/

/-- Attempt the export pattern at the start of `s`: the literal, a
maximal non-empty whitespace run (forced, `[A-Z_]` excludes
whitespace), the name run, `=`, then — the lazy value growing until the
first `$`-or-newline alternative succeeds — the non-empty rest of the
line, with a trailing newline consumed into the match. -/
def exportMatchAt (s : JStr) : Option (JStr × JStr × JStr) :=
  if ("export".data).isPrefixOf s then
    let r1 := s.drop 6
    let ws := r1.takeWhile isWs
    if ws.isEmpty then none
    else
      let r2 := r1.dropWhile isWs
      let name := r2.takeWhile isUpperU
      if name.isEmpty then none
      else
        match r2.drop name.length with
        | '=' :: rest =>
          let value := rest.takeWhile (fun c => c != '\n')
          if value.isEmpty then none
          else
            match rest.drop value.length with
            | '\n' :: suffix => some (name, value, suffix)
            | after => some (name, value, after)
        | _ => none
  else none

def exportMatches : Nat → JStr → List (JStr × JStr)
  | 0, _ => []
  | fuel+1, s =>
    match s with
    | [] => []
    | c :: rest =>
      match exportMatchAt (c :: rest) with
      | some (name, value, suffix) => (name, value) :: exportMatches fuel suffix
      | none => exportMatches fuel rest

/-- `String(step.run)` for the modelled values (the analyzed steps carry
string `run` scripts; array stringification is outside the modelled
universe). -/
def jsToStr : JsVal → JStr
  | .str s => s
  | .num n => (toString n).data
  | .bool true => ("true".data)
  | .bool false => ("false".data)
  | .null => ("null".data)
  | .arr _ => []
  | .obj _ => ("[object Object]".data)

def ghEnvVarsOf (runStr : JStr) : List StepVar :=
  (ghMatches runStr.length runStr).map (fun nv => mkGithubEnvVar nv.1 nv.2)

def exportVarsOf (runStr : JStr) : List StepVar :=
  (exportMatches runStr.length runStr).map (fun nv =>
    StepVar.exportVar nv.1 (trimJs nv.2)
      ("Shell environment variable (available in this step only)".data))

def analyzeStepVariables (w step : JsVal) : List StepVar :=
  envVarsOf step ++
    (extractExprs (jsonStringify step)).map (mkExprVar w) ++
    (match getProp step ("run".data) with
     | some r => if truthy r then ghEnvVarsOf (jsToStr r) ++ exportVarsOf (jsToStr r) else []
     | none => [])

theorem mkExprVar_not_ghenv (w : JsVal) (m : JStr) :
    StepVar.isGithubEnv (mkExprVar w m) = false := by
  unfold mkExprVar
  simp only []
  split_ifs <;> rfl

theorem envVarsOf_not_ghenv (step : JsVal) :
    ∀ v ∈ envVarsOf step, StepVar.isGithubEnv v = false := by
  intro v hv
  unfold envVarsOf at hv
  split at hv
  next =>
    split at hv
    · split at hv
      next =>
        rcases List.mem_map.mp hv with ⟨kv, _, hkv⟩
        rw [← hkv]
        rfl
      next => cases hv
    · cases hv
  next => cases hv

/-- Scenario E's `run` line. -/
def scenarioLine : JStr :=
  ("echo \x22BUILD_ID=$\x7bGITHUB_RUN_NUMBER\x7d\x22 >> $GITHUB_ENV".data)

/-- C8 (amended): for every step whose `run` script is exactly the line
`echo "BUILD_ID=$\x7bGITHUB_RUN_NUMBER\x7d" >> $GITHUB_ENV`, the
extractor yields exactly one `github_env`-typed variable, named
`BUILD_ID`, whose predicted value is the extracted value text — which
retains the closing quote of the echo argument, i.e.
`$\x7bGITHUB_RUN_NUMBER\x7d"` — with `$\x7bGITHUB_RUN_NUMBER\x7d`
replaced by the fixed example run-number string `42`, giving `42"`.
(The original claim's «exactly one» fails when the script contains
further `NAME=value >> $GITHUB_ENV` assignments; see the
counterexample.) -/
theorem analyzeStep_build_id (w step : JsVal)
    (hrun : getProp step ("run".data) = some (.str scenarioLine)) :
    (analyzeStepVariables w step).filter StepVar.isGithubEnv =
      [.githubEnvVar ("BUILD_ID".data) ("$\x7bGITHUB_RUN_NUMBER\x7d\x22".data)
        ("This variable will be available in subsequent steps".data)
        (some ("42\x22".data))] := by
  unfold analyzeStepVariables
  rw [hrun]
  rw [List.filter_append, List.filter_append]
  have h1 : (envVarsOf step).filter StepVar.isGithubEnv = [] :=
    List.filter_eq_nil_iff.mpr (fun v hv => by simp [envVarsOf_not_ghenv step v hv])
  have h2 : ((extractExprs (jsonStringify step)).map (mkExprVar w)).filter
      StepVar.isGithubEnv = [] := by
    refine List.filter_eq_nil_iff.mpr ?_
    intro v hv
    rcases List.mem_map.mp hv with ⟨m, _, hm⟩
    rw [← hm]
    simp [mkExprVar_not_ghenv]
  rw [h1, h2]
  rfl

def c8CexRun : JStr := scenarioLine ++ ('\n' :: ("FOO=1 >> $GITHUB_ENV".data))

/-- C8 counterexample: this step's `run` script contains the scenario
line (it is the script's first line) together with a second
`NAME=value >> $GITHUB_ENV` assignment; the extractor yields two
`github_env`-typed variables, so the claimed «exactly one variable of
type github_env» fails for steps that merely *contain* the line. -/
theorem analyzeStep_build_id_cex :
    scenarioLine ∈ splitNl c8CexRun ∧
      ((analyzeStepVariables (.obj [])
          (.obj [(("run".data), .str c8CexRun)])).filter StepVar.isGithubEnv).length = 2 := by
  constructor
  · decide
  · rfl

theorem analyzeStep_build_id_witness :
    getProp (.obj [(("run".data), .str scenarioLine)]) ("run".data) =
        some (.str scenarioLine) ∧
      (analyzeStepVariables (.obj [])
          (.obj [(("run".data), .str scenarioLine)])).filter StepVar.isGithubEnv =
        [.githubEnvVar ("BUILD_ID".data) ("$\x7bGITHUB_RUN_NUMBER\x7d\x22".data)
          ("This variable will be available in subsequent steps".data)
          (some ("42\x22".data))] :=
  ⟨rfl, analyzeStep_build_id (.obj []) (.obj [(("run".data), .str scenarioLine)]) rfl⟩
